import Mathlib

/-
Verification of the API token store and its row aggregation layer
(frontend/src/hooks/api/getters/useFeatureSearch/useFeatureSearch.ts,
ApiTokenStore section).

The embedding models the row-to-domain aggregation (tokenRowReducer,
toTokens) and the relational store operations (getAll, getAllActive, get,
insert, setExpiry, markSeenAt, existsSecret) over an explicit store state
holding the three tables: api_tokens, api_token_project and
api_token_environment. Timestamps are integers; the database current time
is passed explicitly where a query refers to it. Fallible operations
return Except values; the single transaction of insert is modelled by
returning the whole new state only on success.
-/

def ALL : String := "*"

/-- Modelled from the spec: `isAll` is imported from types/models/api-token,
which is not among the provided sources. The algorithm section of the spec
says the reducer clears the wildcard default on the first concrete value
seen, so `isAll` recognises exactly the wildcard default list, the list
whose single element is the sentinel. -/
def isAll (l : List String) : Bool := l == [ALL]

/-- Modelled from the spec: ALL_PROJECTS is imported from util/constants,
which is not among the provided sources. The design notes record that the
project sentinel reuses the same `*` value as the environment wildcard. -/
def ALL_PROJECTS : String := "*"

/-- JavaScript truthiness of an optional string column: null, undefined and
the empty string are falsy. -/
def truthy : Option String → Bool
  | none => false
  | some s => s != ""

/-- A flat row produced by the left join of the token table with the two
link tables (the shape consumed by tokenRowReducer): the selected scalar
columns plus nullable project and environment columns. -/
structure TokenRow where
  secret : String
  username : String
  type_ : String
  expires_at : Option Int
  created_at : Int
  seen_at : Option Int
  project : Option String
  environment : Option String
deriving DecidableEq, Repr

/-- The aggregated domain object (IApiToken as built by the reducer). -/
structure IApiToken where
  secret : String
  username : String
  type_ : String
  project : String
  projects : List String
  environment : String
  environments : List String
  expiresAt : Option Int
  createdAt : Int
deriving DecidableEq, Repr

/-- The fresh accumulator entry seeded when a secret is first encountered. -/
def seedToken (row : TokenRow) : IApiToken :=
  { secret := row.secret, username := row.username, type_ := row.type_,
    project := ALL, projects := [ALL],
    environment := ALL, environments := [ALL],
    expiresAt := row.expires_at, createdAt := row.created_at }

/-- The project branch of the reducer body: on a truthy project column,
clear the wildcard default if still present, append the project and
recompute the joined string. -/
def applyProject (row : TokenRow) (t : IApiToken) : IApiToken :=
  if truthy row.project then
    let ps := (if isAll t.projects then [] else t.projects) ++ [row.project.getD ""]
    { t with projects := ps, project := String.intercalate "," ps }
  else t

/-- The environment branch of the reducer body, symmetric to the project
branch. -/
def applyEnvironment (row : TokenRow) (t : IApiToken) : IApiToken :=
  if truthy row.environment then
    let es := (if isAll t.environments then [] else t.environments) ++ [row.environment.getD ""]
    { t with environments := es, environment := String.intercalate "," es }
  else t

/-- Both mutation branches of the reducer body, applied to the current
accumulator entry for the row secret. -/
def updateToken (row : TokenRow) (t : IApiToken) : IApiToken :=
  applyEnvironment row (applyProject row t)

/-- tokenRowReducer: the accumulator object keyed by secret is modelled as
a list of tokens in key insertion order; a missing key is appended, then
the entry for the row secret is updated in place. -/
def tokenRowReducer (acc : List IApiToken) (row : TokenRow) : List IApiToken :=
  let acc1 := if acc.any (fun t => t.secret == row.secret) then acc
              else acc ++ [seedToken row]
  acc1.map (fun t => if t.secret == row.secret then updateToken row t else t)

/-- toTokens: fold the rows through the reducer and return the accumulated
values. -/
def toTokens (rows : List TokenRow) : List IApiToken :=
  rows.foldl tokenRowReducer []

/-- One push step of a scope list, as performed by the reducer on a truthy
column value. -/
def pushScope (l : List String) (x : String) : List String :=
  (if isAll l then [] else l) ++ [x]

/-- The scope list obtained from the wildcard default by pushing a sequence
of values. -/
def scopeFold (xs : List String) : List String := xs.foldl pushScope [ALL]

/-- The rows of a given secret, in row order. -/
def rowsFor (s : String) (rows : List TokenRow) : List TokenRow :=
  rows.filter (fun r => r.secret == s)

/-- The value of an optional column when truthy, none otherwise. -/
def truthyVal (o : Option String) : Option String :=
  if truthy o then some (o.getD "") else none

/-- The truthy project values carried by the rows of a given secret, in
row order. -/
def secretProjects (s : String) (rows : List TokenRow) : List String :=
  (rowsFor s rows).filterMap (fun r => truthyVal r.project)

/-- The truthy environment values carried by the rows of a given secret,
in row order. -/
def secretEnvironments (s : String) (rows : List TokenRow) : List String :=
  (rowsFor s rows).filterMap (fun r => truthyVal r.environment)

/-- The distinct secrets of a row sequence in order of first appearance. -/
def firstSecrets (rows : List TokenRow) : List String :=
  rows.foldl (fun l r => if r.secret ∈ l then l else l ++ [r.secret]) []

/-- A row of the api_tokens table (ITokenInsert without the
database-assigned id, which no modelled operation reads). -/
structure TokenTableRow where
  secret : String
  username : String
  type_ : String
  expires_at : Option Int
  created_at : Int
  seen_at : Option Int
deriving DecidableEq, Repr

/-- The state of the three tables used by the store. Link rows are
(secret, value) pairs. -/
structure StoreState where
  tokens : List TokenTableRow
  tokenProjects : List (String × String)
  tokenEnvironments : List (String × String)
deriving DecidableEq, Repr

/-- The values linked to a secret in a link table, in table order. -/
def linksFor (links : List (String × String)) (s : String) : List String :=
  (links.filter (fun l => l.1 == s)).map (fun l => l.2)

/-- Left outer join of one side: a token with no link rows still yields one
joined row, with a null column. -/
def leftOpt : List String → List (Option String)
  | [] => [none]
  | xs => xs.map some

/-- The token-creation request (IApiTokenCreate); the project and
environment lists are optional in the source type. -/
structure IApiTokenCreate where
  secret : String
  username : String
  type_ : String
  projects : Option (List String)
  environments : Option (List String)
  expiresAt : Option Int
deriving DecidableEq, Repr

/-- Error kinds raised by the modelled store: primary-key violation on the
token table, an injected link-statement failure, the NotFoundError of
setExpiry, and a generic storage failure used when quantifying over the
behaviour of the storage layer. -/
inductive StoreError
  | uniqueViolation
  | linkInsertFailure
  | notFound
  | storageFailure
deriving DecidableEq, Repr

/-- The synthesized response of insert: the spread of the request plus the
joined string projections and the captured creation timestamp. -/
structure InsertedToken where
  secret : String
  username : String
  type_ : String
  projects : Option (List String)
  environments : Option (List String)
  expiresAt : Option Int
  project : String
  environment : String
  createdAt : Int
deriving DecidableEq, Repr

/-- The joined string projection used by insert: join of the optional list,
with the empty join (undefined list or empty string) falling back to the
wildcard, as in the source `newToken.projects?.join(',') || '*'`. -/
def joinOrAll : Option (List String) → String
  | none => ALL
  | some xs => let s := String.intercalate "," xs; if s = "" then ALL else s

namespace ApiTokenStore

/-- toRow (the token-table row written by insert). The source also
computes an environment value that targets a column absent from
ITokenInsert and never read by any modelled query; created_at is assigned
by the database and captured through `returning`, modelled by the `now`
argument. -/
def toRow (newToken : IApiTokenCreate) (now : Int) : TokenTableRow :=
  { secret := newToken.secret, username := newToken.username,
    type_ := newToken.type_, expires_at := newToken.expiresAt,
    created_at := now, seen_at := none }

/-- The rows a single token table row contributes to
makeTokenProjectQuery: the left join with its project links and its
environment links on secret. -/
def rowsOfToken (st : StoreState) (t : TokenTableRow) : List TokenRow :=
  (leftOpt (linksFor st.tokenProjects t.secret)).flatMap (fun p =>
    (leftOpt (linksFor st.tokenEnvironments t.secret)).map (fun e =>
      { secret := t.secret, username := t.username, type_ := t.type_,
        expires_at := t.expires_at, created_at := t.created_at,
        seen_at := t.seen_at, project := p, environment := e }))

/-- makeTokenProjectQuery: the token table left joined with both link
tables on secret, selecting the scalar columns plus the link columns. -/
def makeTokenProjectQuery (st : StoreState) : List TokenRow :=
  st.tokens.flatMap (rowsOfToken st)

/-- getAll. -/
def getAll (st : StoreState) : List IApiToken :=
  toTokens (makeTokenProjectQuery st)

/-- The filter applied by getAllActive to a joined row: expires_at is null
or strictly later than the database current time. -/
def rowIsActive (now : Int) (r : TokenRow) : Bool :=
  match r.expires_at with
  | none => true
  | some e => now < e

/-- The same expiry condition on a token table row. -/
def tokenIsActive (now : Int) (t : TokenTableRow) : Bool :=
  match t.expires_at with
  | none => true
  | some e => now < e

/-- getAllActive: the where clause applies to the joined rows. -/
def getAllActive (now : Int) (st : StoreState) : List IApiToken :=
  toTokens ((makeTokenProjectQuery st).filter (rowIsActive now))

/-- get: filter the joined rows by secret, aggregate, take the first
element (undefined, modelled none, when there is no such token). -/
def get (st : StoreState) (key : String) : Option IApiToken :=
  (toTokens ((makeTokenProjectQuery st).filter (fun r => r.secret == key))).head?

/-- exists: raw EXISTS query on the token table. -/
def existsSecret (st : StoreState) (secret : String) : Bool :=
  st.tokens.any (fun t => t.secret == secret)

/-- The project link rows written by insert: every requested project other
than ALL_PROJECTS (the updateProjectTasks fan-out). -/
def projLinks (newToken : IApiTokenCreate) : List String :=
  (newToken.projects.getD []).filter (fun p => p != ALL_PROJECTS)

/-- The environment link rows written by insert: every requested
environment other than the wildcard (the updateEnvironmentTasks fan-out). -/
def envLinks (newToken : IApiTokenCreate) : List String :=
  (newToken.environments.getD []).filter (fun e => e != ALL)

/-- insert, the single transaction: the token row insert (failing on a
duplicate secret), then the project link inserts for every project other
than ALL_PROJECTS, then the environment link inserts for every environment
other than the wildcard. Link statement failures are injected through the
two predicates so that every behaviour of the storage layer can be
quantified over. On any failure nothing commits; on success the new state
carries all three groups of rows and the synthesized response is returned. -/
def insert (failProject failEnvironment : String → Bool)
    (st : StoreState) (newToken : IApiTokenCreate) (now : Int) :
    Except StoreError (InsertedToken × StoreState) :=
  if st.tokens.any (fun t => t.secret == newToken.secret) then
    .error .uniqueViolation
  else if (projLinks newToken).any failProject ||
      (envLinks newToken).any failEnvironment then
    .error .linkInsertFailure
  else
    .ok ({ secret := newToken.secret, username := newToken.username,
           type_ := newToken.type_, projects := newToken.projects,
           environments := newToken.environments,
           expiresAt := newToken.expiresAt,
           project := joinOrAll newToken.projects,
           environment := joinOrAll newToken.environments,
           createdAt := now },
         { tokens := st.tokens ++ [toRow newToken now],
           tokenProjects :=
             st.tokenProjects ++ (projLinks newToken).map (fun p => (newToken.secret, p)),
           tokenEnvironments :=
             st.tokenEnvironments ++ (envLinks newToken).map (fun e => (newToken.secret, e)) })

/-- The database state seen by the caller after insert returns: the new
state on success, the pre-transaction state after a rollback. -/
def insertOutcome (failProject failEnvironment : String → Bool)
    (st : StoreState) (newToken : IApiTokenCreate) (now : Int) : StoreState :=
  match insert failProject failEnvironment st newToken now with
  | .ok r => r.2
  | .error _ => st

/-- A token table row as it reaches toTokens from `returning`: the raw
columns of api_tokens, with no project and environment columns. -/
def rowOfTokenTable (t : TokenTableRow) : TokenRow :=
  { secret := t.secret, username := t.username, type_ := t.type_,
    expires_at := t.expires_at, created_at := t.created_at,
    seen_at := t.seen_at, project := none, environment := none }

/-- The token table after the update statement of setExpiry: every row
matching the secret gets the new expires_at. -/
def updatedTokens (st : StoreState) (secret : String) (expiresAt : Int) :
    List TokenTableRow :=
  st.tokens.map (fun t =>
    if t.secret == secret then { t with expires_at := some expiresAt } else t)

/-- The rows the update statement returns: the updated rows matching the
secret. -/
def returnedRows (st : StoreState) (secret : String) (expiresAt : Int) :
    List TokenTableRow :=
  (updatedTokens st secret expiresAt).filter (fun t => t.secret == secret)

/-- setExpiry: update expires_at on the rows matching the secret, feed the
returned rows through toTokens and take the first element; raise
NotFoundError when no row matched. -/
def setExpiry (st : StoreState) (secret : String) (expiresAt : Int) :
    Except StoreError (Option IApiToken × StoreState) :=
  if (returnedRows st secret expiresAt).length > 0 then
    .ok ((toTokens ((returnedRows st secret expiresAt).map rowOfTokenTable)).head?,
         { st with tokens := updatedTokens st secret expiresAt })
  else .error .notFound

/-- markSeenAt: the inner update (a whereIn on a `secrets` column that the
token table does not have, setting seen_at) is abstracted as an arbitrary
storage outcome passed in, so that every behaviour of the storage layer is
covered; the try/catch converts any failure into a logged message and a
normal return with the state unchanged. -/
def markSeenAt (dbUpdate : Except StoreError StoreState) (st : StoreState) :
    Except StoreError (StoreState × Option String) :=
  match dbUpdate with
  | .ok st2 => .ok (st2, none)
  | .error _ => .ok (st, some "Could not update lastSeen, error: ")

end ApiTokenStore

/-
## Lemmas on the reducer
-/

/-- Replaying the reducer body over a list of rows on a single accumulator
entry. -/
def applyRows (rs : List TokenRow) (t : IApiToken) : IApiToken :=
  rs.foldl (fun t r => updateToken r t) t

theorem applyRows_nil (t : IApiToken) : applyRows [] t = t := rfl

theorem applyRows_cons (r : TokenRow) (rs : List TokenRow) (t : IApiToken) :
    applyRows (r :: rs) t = applyRows rs (updateToken r t) := rfl

theorem applyProject_secret (row : TokenRow) (t : IApiToken) :
    (applyProject row t).secret = t.secret := by
  unfold applyProject; split <;> rfl

theorem applyProject_username (row : TokenRow) (t : IApiToken) :
    (applyProject row t).username = t.username := by
  unfold applyProject; split <;> rfl

theorem applyProject_type (row : TokenRow) (t : IApiToken) :
    (applyProject row t).type_ = t.type_ := by
  unfold applyProject; split <;> rfl

theorem applyProject_expiresAt (row : TokenRow) (t : IApiToken) :
    (applyProject row t).expiresAt = t.expiresAt := by
  unfold applyProject; split <;> rfl

theorem applyProject_createdAt (row : TokenRow) (t : IApiToken) :
    (applyProject row t).createdAt = t.createdAt := by
  unfold applyProject; split <;> rfl

theorem applyProject_environments (row : TokenRow) (t : IApiToken) :
    (applyProject row t).environments = t.environments := by
  unfold applyProject; split <;> rfl

theorem applyProject_environment (row : TokenRow) (t : IApiToken) :
    (applyProject row t).environment = t.environment := by
  unfold applyProject; split <;> rfl

theorem applyEnvironment_secret (row : TokenRow) (t : IApiToken) :
    (applyEnvironment row t).secret = t.secret := by
  unfold applyEnvironment; split <;> rfl

theorem applyEnvironment_username (row : TokenRow) (t : IApiToken) :
    (applyEnvironment row t).username = t.username := by
  unfold applyEnvironment; split <;> rfl

theorem applyEnvironment_type (row : TokenRow) (t : IApiToken) :
    (applyEnvironment row t).type_ = t.type_ := by
  unfold applyEnvironment; split <;> rfl

theorem applyEnvironment_expiresAt (row : TokenRow) (t : IApiToken) :
    (applyEnvironment row t).expiresAt = t.expiresAt := by
  unfold applyEnvironment; split <;> rfl

theorem applyEnvironment_createdAt (row : TokenRow) (t : IApiToken) :
    (applyEnvironment row t).createdAt = t.createdAt := by
  unfold applyEnvironment; split <;> rfl

theorem applyEnvironment_projects (row : TokenRow) (t : IApiToken) :
    (applyEnvironment row t).projects = t.projects := by
  unfold applyEnvironment; split <;> rfl

theorem applyEnvironment_project (row : TokenRow) (t : IApiToken) :
    (applyEnvironment row t).project = t.project := by
  unfold applyEnvironment; split <;> rfl

theorem updateToken_secret (row : TokenRow) (t : IApiToken) :
    (updateToken row t).secret = t.secret := by
  unfold updateToken; rw [applyEnvironment_secret, applyProject_secret]

theorem updateToken_username (row : TokenRow) (t : IApiToken) :
    (updateToken row t).username = t.username := by
  unfold updateToken; rw [applyEnvironment_username, applyProject_username]

theorem updateToken_type (row : TokenRow) (t : IApiToken) :
    (updateToken row t).type_ = t.type_ := by
  unfold updateToken; rw [applyEnvironment_type, applyProject_type]

theorem updateToken_expiresAt (row : TokenRow) (t : IApiToken) :
    (updateToken row t).expiresAt = t.expiresAt := by
  unfold updateToken; rw [applyEnvironment_expiresAt, applyProject_expiresAt]

theorem updateToken_createdAt (row : TokenRow) (t : IApiToken) :
    (updateToken row t).createdAt = t.createdAt := by
  unfold updateToken; rw [applyEnvironment_createdAt, applyProject_createdAt]

theorem applyRows_secret (rs : List TokenRow) (t : IApiToken) :
    (applyRows rs t).secret = t.secret := by
  induction rs generalizing t with
  | nil => rfl
  | cons r rs ih => rw [applyRows_cons, ih, updateToken_secret]

theorem applyRows_username (rs : List TokenRow) (t : IApiToken) :
    (applyRows rs t).username = t.username := by
  induction rs generalizing t with
  | nil => rfl
  | cons r rs ih => rw [applyRows_cons, ih, updateToken_username]

theorem applyRows_type (rs : List TokenRow) (t : IApiToken) :
    (applyRows rs t).type_ = t.type_ := by
  induction rs generalizing t with
  | nil => rfl
  | cons r rs ih => rw [applyRows_cons, ih, updateToken_type]

theorem applyRows_expiresAt (rs : List TokenRow) (t : IApiToken) :
    (applyRows rs t).expiresAt = t.expiresAt := by
  induction rs generalizing t with
  | nil => rfl
  | cons r rs ih => rw [applyRows_cons, ih, updateToken_expiresAt]

theorem applyRows_createdAt (rs : List TokenRow) (t : IApiToken) :
    (applyRows rs t).createdAt = t.createdAt := by
  induction rs generalizing t with
  | nil => rfl
  | cons r rs ih => rw [applyRows_cons, ih, updateToken_createdAt]

theorem find?_map_pres (g : IApiToken → IApiToken) (p : IApiToken → Bool)
    (h : ∀ t, p (g t) = p t) (l : List IApiToken) :
    (l.map g).find? p = (l.find? p).map g := by
  induction l with
  | nil => rfl
  | cons a l ih =>
    cases hpa : p a with
    | true =>
      rw [List.map_cons, List.find?_cons_of_pos _ (by rw [h a, hpa]),
          List.find?_cons_of_pos _ hpa]
      rfl
    | false =>
      rw [List.map_cons, List.find?_cons_of_neg _ (by rw [h a, hpa]; simp),
          List.find?_cons_of_neg _ (by simp [hpa]), ih]

theorem any_eq_find?_isSome (l : List IApiToken) (p : IApiToken → Bool) :
    l.any p = (l.find? p).isSome := by
  induction l with
  | nil => rfl
  | cons a l ih =>
    cases hpa : p a with
    | true =>
      rw [List.any_cons, hpa, Bool.true_or, List.find?_cons_of_pos _ hpa]
      rfl
    | false =>
      rw [List.any_cons, hpa, Bool.false_or, ih,
          List.find?_cons_of_neg _ (by simp [hpa])]



theorem find?_singleton (t : IApiToken) (p : IApiToken → Bool) :
    List.find? p [t] = if p t then some t else none := by
  cases hp : p t
  · rw [List.find?_cons_of_neg _ (by simp [hp])]
    simp [hp]
  · rw [List.find?_cons_of_pos _ hp]
    simp [hp]

/-- The effect of one reducer step on the accumulator entry of an
arbitrary secret. -/
theorem find?_tokenRowReducer (acc : List IApiToken) (row : TokenRow) (s : String) :
    (tokenRowReducer acc row).find? (fun t => t.secret == s) =
      if row.secret == s then
        match acc.find? (fun t => t.secret == s) with
        | some t => some (updateToken row t)
        | none => some (updateToken row (seedToken row))
      else acc.find? (fun t => t.secret == s) := by
  have hpres : ∀ t : IApiToken,
      ((if t.secret == row.secret then updateToken row t else t).secret == s) =
        (t.secret == s) := by
    intro t
    by_cases hb : (t.secret == row.secret) = true
    · rw [if_pos hb, updateToken_secret]
    · rw [if_neg hb]
  unfold tokenRowReducer
  rw [find?_map_pres _ _ hpres]
  by_cases hr : (row.secret == s) = true
  · have hs : row.secret = s := beq_iff_eq.mp hr
    subst hs
    rw [if_pos hr]
    cases hf : acc.find? (fun t => t.secret == row.secret) with
    | some t =>
      have hany : acc.any (fun t => t.secret == row.secret) = true := by
        rw [any_eq_find?_isSome, hf]; rfl
      have hts : (t.secret == row.secret) = true := by
        simpa using List.find?_some hf
      rw [if_pos hany, hf]
      show some (if (t.secret == row.secret) = true then updateToken row t else t) =
        some (updateToken row t)
      rw [if_pos hts]
    | none =>
      have hany : acc.any (fun t => t.secret == row.secret) = false := by
        rw [any_eq_find?_isSome, hf]; rfl
      rw [if_neg (by simp [hany]), List.find?_append, hf, find?_singleton,
          Option.none_or]
      rw [if_pos (by simp [seedToken])]
      show some (if ((seedToken row).secret == row.secret) = true then
          updateToken row (seedToken row) else seedToken row) =
        some (updateToken row (seedToken row))
      rw [if_pos (by simp [seedToken])]
  · rw [if_neg hr]
    have hfilt : ∀ t : IApiToken, (t.secret == s) = true →
        (if t.secret == row.secret then updateToken row t else t) = t := by
      intro t ht
      have hts : t.secret = s := beq_iff_eq.mp ht
      have hne : (t.secret == row.secret) = false := by
        apply beq_eq_false_iff_ne.mpr
        intro hcontra
        apply hr
        rw [← hcontra, ← hts]
        exact beq_iff_eq.mpr rfl
      rw [if_neg (by simp [hne])]
    by_cases hany : acc.any (fun t => t.secret == row.secret) = true
    · rw [if_pos hany]
      cases hf : acc.find? (fun t => t.secret == s) with
      | some t =>
        have hts : (t.secret == s) = true := by
          simpa using List.find?_some hf
        show some (if (t.secret == row.secret) = true then updateToken row t else t) =
          some t
        rw [hfilt t hts]
      | none => rfl
    · rw [if_neg hany, List.find?_append, find?_singleton]
      have hcond : ((seedToken row).secret == s) = false := by
        simpa [seedToken] using hr
      rw [if_neg (by simp [hcond])]
      cases hf : acc.find? (fun t => t.secret == s) with
      | some t =>
        have hts : (t.secret == s) = true := by
          simpa using List.find?_some hf
        show some (if (t.secret == row.secret) = true then updateToken row t else t) =
          some t
        rw [hfilt t hts]
      | none => rfl

theorem rowsFor_nil (s : String) : rowsFor s [] = [] := rfl

theorem rowsFor_cons (s : String) (r : TokenRow) (rows : List TokenRow) :
    rowsFor s (r :: rows) =
      if r.secret == s then r :: rowsFor s rows else rowsFor s rows := by
  unfold rowsFor
  rw [List.filter_cons]

/-- The accumulator entry of a secret after folding a whole row sequence:
an existing entry is replayed over the rows of that secret; a missing one
is seeded from the first such row and replayed over all of them. -/
theorem find?_foldl_reducer (rows : List TokenRow) (acc : List IApiToken) (s : String) :
    (rows.foldl tokenRowReducer acc).find? (fun t => t.secret == s) =
      match acc.find? (fun t => t.secret == s) with
      | some t => some (applyRows (rowsFor s rows) t)
      | none =>
        match rowsFor s rows with
        | [] => none
        | r :: rs => some (applyRows (r :: rs) (seedToken r)) := by
  induction rows generalizing acc with
  | nil =>
    rw [List.foldl_nil, rowsFor_nil]
    cases hf : acc.find? (fun t => t.secret == s) with
    | some t => rfl
    | none => rfl
  | cons r rest ih =>
    rw [List.foldl_cons, ih, find?_tokenRowReducer, rowsFor_cons]
    by_cases hr : (r.secret == s) = true
    · rw [if_pos hr, if_pos hr]
      cases hf : acc.find? (fun t => t.secret == s) with
      | some t => rfl
      | none => rfl
    · rw [if_neg hr, if_neg hr]

/-- The token toTokens produces for a secret: the seed of the first row of
that secret, replayed over all its rows. -/
theorem find?_toTokens (rows : List TokenRow) (s : String) :
    (toTokens rows).find? (fun t => t.secret == s) =
      match rowsFor s rows with
      | [] => none
      | r :: rs => some (applyRows (r :: rs) (seedToken r)) := by
  unfold toTokens
  rw [find?_foldl_reducer]
  rfl

theorem truthyVal_eq_some (o : Option String) (v : String) :
    truthyVal o = some v ↔ o = some v ∧ v ≠ "" := by
  cases o with
  | none => simp [truthyVal, truthy]
  | some s =>
    by_cases h : s = ""
    · subst h
      simp [truthyVal, truthy]
      exact fun hv => hv.symm
    · simp [truthyVal, truthy, h]
      intro hv; subst hv; exact fun hcontra => h hcontra

theorem applyProject_projects_char (row : TokenRow) (t : IApiToken) :
    (applyProject row t).projects =
      match truthyVal row.project with
      | some p => pushScope t.projects p
      | none => t.projects := by
  unfold applyProject truthyVal pushScope
  by_cases h : truthy row.project = true
  · rw [if_pos h, if_pos h]
  · rw [if_neg h, if_neg h]

theorem applyEnvironment_environments_char (row : TokenRow) (t : IApiToken) :
    (applyEnvironment row t).environments =
      match truthyVal row.environment with
      | some e => pushScope t.environments e
      | none => t.environments := by
  unfold applyEnvironment truthyVal pushScope
  by_cases h : truthy row.environment = true
  · rw [if_pos h, if_pos h]
  · rw [if_neg h, if_neg h]

theorem updateToken_projects_char (row : TokenRow) (t : IApiToken) :
    (updateToken row t).projects =
      match truthyVal row.project with
      | some p => pushScope t.projects p
      | none => t.projects := by
  unfold updateToken
  rw [applyEnvironment_projects, applyProject_projects_char]

theorem updateToken_environments_char (row : TokenRow) (t : IApiToken) :
    (updateToken row t).environments =
      match truthyVal row.environment with
      | some e => pushScope t.environments e
      | none => t.environments := by
  unfold updateToken
  rw [applyEnvironment_environments_char, applyProject_environments]

/-- The projects list after replaying rows is the fold of the push step
over the truthy project values. -/
theorem applyRows_projects (rs : List TokenRow) (t : IApiToken) :
    (applyRows rs t).projects =
      (rs.filterMap (fun r => truthyVal r.project)).foldl pushScope t.projects := by
  induction rs generalizing t with
  | nil => rfl
  | cons r rs ih =>
    rw [applyRows_cons, ih, List.filterMap_cons]
    cases hv : truthyVal r.project with
    | some p =>
      rw [List.foldl_cons]
      have : (updateToken r t).projects = pushScope t.projects p := by
        rw [updateToken_projects_char, hv]
      rw [this]
    | none =>
      have : (updateToken r t).projects = t.projects := by
        rw [updateToken_projects_char, hv]
      rw [this]

/-- The environments list after replaying rows is the fold of the push
step over the truthy environment values. -/
theorem applyRows_environments (rs : List TokenRow) (t : IApiToken) :
    (applyRows rs t).environments =
      (rs.filterMap (fun r => truthyVal r.environment)).foldl pushScope t.environments := by
  induction rs generalizing t with
  | nil => rfl
  | cons r rs ih =>
    rw [applyRows_cons, ih, List.filterMap_cons]
    cases hv : truthyVal r.environment with
    | some e =>
      rw [List.foldl_cons]
      have : (updateToken r t).environments = pushScope t.environments e := by
        rw [updateToken_environments_char, hv]
      rw [this]
    | none =>
      have : (updateToken r t).environments = t.environments := by
        rw [updateToken_environments_char, hv]
      rw [this]

/-- The joined string projections stay equal to the comma join of the
lists under the reducer body. -/
def joinedStrings (t : IApiToken) : Prop :=
  t.project = String.intercalate "," t.projects ∧
    t.environment = String.intercalate "," t.environments

theorem seedToken_joined (row : TokenRow) : joinedStrings (seedToken row) := by
  constructor <;> rfl

theorem updateToken_joined (row : TokenRow) (t : IApiToken)
    (h : joinedStrings t) : joinedStrings (updateToken row t) := by
  obtain ⟨h1, h2⟩ := h
  constructor
  · unfold updateToken
    rw [applyEnvironment_project, applyEnvironment_projects]
    unfold applyProject
    by_cases hp : truthy row.project = true
    · rw [if_pos hp]
    · rw [if_neg hp]; exact h1
  · unfold updateToken applyEnvironment
    by_cases he : truthy row.environment = true
    · rw [if_pos he]
    · rw [if_neg he]
      rw [applyProject_environment, applyProject_environments]
      exact h2

theorem applyRows_joined (rs : List TokenRow) (t : IApiToken)
    (h : joinedStrings t) : joinedStrings (applyRows rs t) := by
  induction rs generalizing t with
  | nil => exact h
  | cons r rs ih => rw [applyRows_cons]; exact ih _ (updateToken_joined r t h)

theorem scopeFold_nil : scopeFold [] = [ALL] := rfl

theorem foldl_pushScope_frozen (xs : List String) (l : List String)
    (hne : l ≠ []) (hl : l ≠ [ALL]) : xs.foldl pushScope l = l ++ xs := by
  induction xs generalizing l with
  | nil => rw [List.foldl_nil, List.append_nil]
  | cons x xs ih =>
    have hstep : pushScope l x = l ++ [x] := by
      unfold pushScope
      rw [if_neg]
      simp [isAll]
      exact hl
    rw [List.foldl_cons, hstep, ih (l ++ [x]) (by simp) ?hlx, List.append_assoc]
    · rfl
    case hlx =>
      intro hcontra
      apply hne
      have hlen := congrArg List.length hcontra
      simp at hlen
      exact hlen

/-- Pushing a nonempty sequence of values that never contains the wildcard
yields exactly that sequence. -/
theorem scopeFold_concrete (xs : List String) (hne : xs ≠ [])
    (hstar : ALL ∉ xs) : scopeFold xs = xs := by
  cases xs with
  | nil => exact absurd rfl hne
  | cons x xs =>
    unfold scopeFold
    have hx : x ≠ ALL := by
      intro h; exact hstar (by rw [h]; exact List.mem_cons_self _ _)
    have hstep : pushScope [ALL] x = [x] := by
      unfold pushScope
      rw [if_pos (by simp [isAll])]
      rfl
    rw [List.foldl_cons, hstep,
        foldl_pushScope_frozen xs [x] (by simp) (by simpa using hx)]
    rfl

theorem any_secret_iff (acc : List IApiToken) (s : String) :
    acc.any (fun t => t.secret == s) = true ↔ s ∈ acc.map (fun t => t.secret) := by
  rw [List.any_eq_true]
  constructor
  · rintro ⟨t, ht, hts⟩
    exact List.mem_map.mpr ⟨t, ht, beq_iff_eq.mp hts⟩
  · intro h
    obtain ⟨t, ht, hts⟩ := List.mem_map.mp h
    exact ⟨t, ht, beq_iff_eq.mpr hts⟩

theorem map_secret_tokenRowReducer (acc : List IApiToken) (row : TokenRow) :
    (tokenRowReducer acc row).map (fun t => t.secret) =
      if row.secret ∈ acc.map (fun t => t.secret) then acc.map (fun t => t.secret)
      else acc.map (fun t => t.secret) ++ [row.secret] := by
  have hmap : ∀ l : List IApiToken,
      (l.map (fun t => if t.secret == row.secret then updateToken row t else t)).map
          (fun t => t.secret) = l.map (fun t => t.secret) := by
    intro l
    induction l with
    | nil => rfl
    | cons a l ih =>
      rw [List.map_cons, List.map_cons, List.map_cons, ih]
      congr 1
      by_cases hb : (a.secret == row.secret) = true
      · rw [if_pos hb, updateToken_secret]
      · rw [if_neg hb]
  unfold tokenRowReducer
  rw [hmap]
  by_cases hmem : row.secret ∈ acc.map (fun t => t.secret)
  · rw [if_pos ((any_secret_iff acc row.secret).mpr hmem), if_pos hmem]
  · have hany : acc.any (fun t => t.secret == row.secret) ≠ true := by
      intro h; exact hmem ((any_secret_iff acc row.secret).mp h)
    rw [if_neg hany, if_neg hmem, List.map_append]
    rfl

theorem map_secret_foldl (rows : List TokenRow) (acc : List IApiToken) :
    (rows.foldl tokenRowReducer acc).map (fun t => t.secret) =
      rows.foldl (fun l r => if r.secret ∈ l then l else l ++ [r.secret])
        (acc.map (fun t => t.secret)) := by
  induction rows generalizing acc with
  | nil => rfl
  | cons r rest ih =>
    rw [List.foldl_cons, List.foldl_cons, ih, map_secret_tokenRowReducer]

/-- The secrets of the aggregated tokens are the distinct row secrets in
order of first appearance. -/
theorem toTokens_secrets (rows : List TokenRow) :
    (toTokens rows).map (fun t => t.secret) = firstSecrets rows :=
  map_secret_foldl rows []

theorem mem_foldl_addSecret (rows : List TokenRow) (l : List String) (x : String) :
    x ∈ rows.foldl (fun l r => if r.secret ∈ l then l else l ++ [r.secret]) l ↔
      x ∈ l ∨ ∃ r ∈ rows, r.secret = x := by
  induction rows generalizing l with
  | nil => simp
  | cons r rest ih =>
    rw [List.foldl_cons, ih]
    have hstep : x ∈ (if r.secret ∈ l then l else l ++ [r.secret]) ↔
        x ∈ l ∨ x = r.secret := by
      by_cases h : r.secret ∈ l
      · rw [if_pos h]
        constructor
        · exact Or.inl
        · rintro (hx | hx)
          · exact hx
          · rw [hx]; exact h
      · rw [if_neg h]
        simp
    rw [hstep]
    constructor
    · rintro ((hx | hx) | ⟨r2, hr2, hs2⟩)
      · exact Or.inl hx
      · exact Or.inr ⟨r, List.mem_cons_self r rest, hx.symm⟩
      · exact Or.inr ⟨r2, List.mem_cons_of_mem r hr2, hs2⟩
    · rintro (hx | ⟨r2, hr2, hs2⟩)
      · exact Or.inl (Or.inl hx)
      · rcases List.mem_cons.mp hr2 with h2 | h2
        · subst h2; exact Or.inl (Or.inr hs2.symm)
        · exact Or.inr ⟨r2, h2, hs2⟩

theorem nodup_foldl_addSecret (rows : List TokenRow) (l : List String)
    (h : l.Nodup) :
    (rows.foldl (fun l r => if r.secret ∈ l then l else l ++ [r.secret]) l).Nodup := by
  induction rows generalizing l with
  | nil => exact h
  | cons r rest ih =>
    rw [List.foldl_cons]
    apply ih
    by_cases hm : r.secret ∈ l
    · rw [if_pos hm]; exact h
    · rw [if_neg hm, List.nodup_append]
      refine ⟨h, List.nodup_singleton _, ?_⟩
      intro a ha hb
      rw [List.mem_singleton] at hb
      subst hb
      exact hm ha

theorem firstSecrets_nodup (rows : List TokenRow) : (firstSecrets rows).Nodup :=
  nodup_foldl_addSecret rows [] List.nodup_nil

theorem mem_firstSecrets (rows : List TokenRow) (x : String) :
    x ∈ firstSecrets rows ↔ ∃ r ∈ rows, r.secret = x := by
  unfold firstSecrets
  rw [mem_foldl_addSecret]
  simp

theorem find?_eq_of_mem_nodup (l : List IApiToken)
    (h : (l.map (fun t => t.secret)).Nodup) (t : IApiToken) (ht : t ∈ l) :
    l.find? (fun u => u.secret == t.secret) = some t := by
  induction l with
  | nil => exact absurd ht (List.not_mem_nil t)
  | cons a rest ih =>
    rw [List.map_cons, List.nodup_cons] at h
    obtain ⟨hna, hrest⟩ := h
    rcases List.mem_cons.mp ht with hta | hta
    · subst hta
      rw [List.find?_cons_of_pos _ (by simp)]
    · have hne : (a.secret == t.secret) = false := by
        apply beq_eq_false_iff_ne.mpr
        intro hco
        apply hna
        rw [hco]
        exact List.mem_map.mpr ⟨t, hta, rfl⟩
      rw [List.find?_cons_of_neg _ (by simp [hne]), ih hrest hta]

/-- Every aggregated token is the unique entry of its secret. -/
theorem find?_toTokens_self (rows : List TokenRow) (tok : IApiToken)
    (ht : tok ∈ toTokens rows) :
    (toTokens rows).find? (fun u => u.secret == tok.secret) = some tok := by
  apply find?_eq_of_mem_nodup
  · rw [toTokens_secrets]; exact firstSecrets_nodup rows
  · exact ht

theorem foldl_addSecret_const (s : String) (rows : List TokenRow) :
    (∀ r ∈ rows, r.secret = s) →
    rows.foldl (fun l r => if r.secret ∈ l then l else l ++ [r.secret]) [s] = [s] := by
  induction rows with
  | nil => intro _; rfl
  | cons r rest ih =>
    intro hall
    rw [List.foldl_cons,
        if_pos (by rw [hall r (List.mem_cons_self r rest)]; exact List.mem_singleton.mpr rfl)]
    exact ih (fun x hx => hall x (List.mem_cons_of_mem _ hx))

theorem firstSecrets_const (s : String) (r0 : TokenRow) (rs : List TokenRow)
    (hall : ∀ r ∈ r0 :: rs, r.secret = s) : firstSecrets (r0 :: rs) = [s] := by
  unfold firstSecrets
  rw [List.foldl_cons]
  have h0 : r0.secret = s := hall r0 (List.mem_cons_self _ _)
  have hfirst : (if r0.secret ∈ ([] : List String) then ([] : List String)
      else [] ++ [r0.secret]) = [s] := by
    rw [if_neg (List.not_mem_nil _), h0]
    rfl
  rw [hfirst]
  exact foldl_addSecret_const s rs (fun x hx => hall x (List.mem_cons_of_mem _ hx))

/-- A nonempty row sequence that belongs entirely to one secret aggregates
to precisely one token: the seed of the first row replayed over all rows. -/
theorem toTokens_single_secret (s : String) (r0 : TokenRow) (rs : List TokenRow)
    (hall : ∀ r ∈ r0 :: rs, r.secret = s) :
    toTokens (r0 :: rs) = [applyRows (r0 :: rs) (seedToken r0)] := by
  have hsec : (toTokens (r0 :: rs)).map (fun t => t.secret) = [s] := by
    rw [toTokens_secrets]
    exact firstSecrets_const s r0 rs hall
  have hlen : (toTokens (r0 :: rs)).length = 1 := by
    have hmap := congrArg List.length hsec
    simpa using hmap
  obtain ⟨tok, htok⟩ := List.length_eq_one.mp hlen
  have htoksec : tok.secret = s := by
    rw [htok] at hsec
    simpa using hsec
  have hrf : rowsFor s (r0 :: rs) = r0 :: rs := by
    unfold rowsFor
    apply List.filter_eq_self.mpr
    intro r hr
    exact beq_iff_eq.mpr (hall r hr)
  have hfind := find?_toTokens (r0 :: rs) s
  rw [hrf, htok, find?_singleton] at hfind
  rw [if_pos (by simp [htoksec])] at hfind
  have htokeq : tok = applyRows (r0 :: rs) (seedToken r0) := Option.some.inj hfind
  rw [htok, htokeq]

/-- Every member of the aggregation output is the replay of the rows of
its secret over the seed of the first such row. -/
theorem mem_toTokens_char (rows : List TokenRow) (tok : IApiToken)
    (ht : tok ∈ toTokens rows) :
    ∃ r0 rs, rowsFor tok.secret rows = r0 :: rs ∧
      tok = applyRows (r0 :: rs) (seedToken r0) := by
  have hfind := find?_toTokens_self rows tok ht
  rw [find?_toTokens] at hfind
  cases hrf : rowsFor tok.secret rows with
  | nil =>
    rw [hrf] at hfind
    exact absurd hfind (by simp)
  | cons r0 rs =>
    rw [hrf] at hfind
    exact ⟨r0, rs, rfl, (Option.some.inj hfind).symm⟩

theorem toTokens_projects_char (rows : List TokenRow) (tok : IApiToken)
    (ht : tok ∈ toTokens rows) :
    tok.projects = scopeFold (secretProjects tok.secret rows) := by
  obtain ⟨r0, rs, hrf, htok⟩ := mem_toTokens_char rows tok ht
  have hkey : (applyRows (r0 :: rs) (seedToken r0)).projects =
      scopeFold (secretProjects tok.secret rows) := by
    rw [applyRows_projects]
    unfold secretProjects
    rw [hrf]
    rfl
  rw [← htok] at hkey
  exact hkey

theorem toTokens_environments_char (rows : List TokenRow) (tok : IApiToken)
    (ht : tok ∈ toTokens rows) :
    tok.environments = scopeFold (secretEnvironments tok.secret rows) := by
  obtain ⟨r0, rs, hrf, htok⟩ := mem_toTokens_char rows tok ht
  have hkey : (applyRows (r0 :: rs) (seedToken r0)).environments =
      scopeFold (secretEnvironments tok.secret rows) := by
    rw [applyRows_environments]
    unfold secretEnvironments
    rw [hrf]
    rfl
  rw [← htok] at hkey
  exact hkey

theorem toTokens_joined (rows : List TokenRow) (tok : IApiToken)
    (ht : tok ∈ toTokens rows) : joinedStrings tok := by
  obtain ⟨r0, rs, hrf, htok⟩ := mem_toTokens_char rows tok ht
  rw [htok]
  exact applyRows_joined _ _ (seedToken_joined r0)

theorem mem_secretProjects (s : String) (rows : List TokenRow) (p : String)
    (h : p ∈ secretProjects s rows) :
    ∃ r ∈ rows, r.secret = s ∧ r.project = some p := by
  unfold secretProjects rowsFor at h
  obtain ⟨r, hr, hrv⟩ := List.mem_filterMap.mp h
  obtain ⟨hrp, hne⟩ := (truthyVal_eq_some _ _).mp hrv
  have hsec := List.of_mem_filter hr
  exact ⟨r, List.mem_of_mem_filter hr, by simpa using hsec, hrp⟩

theorem mem_secretEnvironments (s : String) (rows : List TokenRow) (e : String)
    (h : e ∈ secretEnvironments s rows) :
    ∃ r ∈ rows, r.secret = s ∧ r.environment = some e := by
  unfold secretEnvironments rowsFor at h
  obtain ⟨r, hr, hrv⟩ := List.mem_filterMap.mp h
  obtain ⟨hrp, hne⟩ := (truthyVal_eq_some _ _).mp hrv
  have hsec := List.of_mem_filter hr
  exact ⟨r, List.mem_of_mem_filter hr, by simpa using hsec, hrp⟩

theorem scopeFold_mem_char (xs : List String) (hstar : ALL ∉ xs) (x : String) :
    x ∈ scopeFold xs ↔ (xs = [] ∧ x = ALL) ∨ x ∈ xs := by
  cases hxs : xs with
  | nil =>
    rw [scopeFold_nil]
    simp
  | cons y ys =>
    rw [scopeFold_concrete (y :: ys) (by simp) (hxs ▸ hstar)]
    simp

theorem secretProjects_nil_of_none (rows : List TokenRow) (s : String)
    (h : ∀ r ∈ rows, r.secret = s → r.project = none) :
    secretProjects s rows = [] := by
  unfold secretProjects
  apply List.filterMap_eq_nil_iff.mpr
  intro r hr
  have hrs := List.of_mem_filter hr
  have : r.project = none := h r (List.mem_of_mem_filter hr) (by simpa using hrs)
  rw [this]
  rfl

theorem secretEnvironments_nil_of_none (rows : List TokenRow) (s : String)
    (h : ∀ r ∈ rows, r.secret = s → r.environment = none) :
    secretEnvironments s rows = [] := by
  unfold secretEnvironments
  apply List.filterMap_eq_nil_iff.mpr
  intro r hr
  have hrs := List.of_mem_filter hr
  have : r.environment = none := h r (List.mem_of_mem_filter hr) (by simpa using hrs)
  rw [this]
  rfl

theorem intercalate_all : String.intercalate "," [ALL] = ALL := rfl

/-- Claim C1 counterexample: two identical rows carrying the same project
for the same secret produce the projects list with the project twice, not
the list of distinct projects in order of first appearance. -/
theorem claim_C1_counterexample :
    (toTokens
        [{ secret := "s", username := "u", type_ := "client", expires_at := none,
           created_at := 0, seen_at := none, project := some "p1", environment := none },
         { secret := "s", username := "u", type_ := "client", expires_at := none,
           created_at := 0, seen_at := none, project := some "p1", environment := none }]).map
        (fun t => t.projects) = [["p1", "p1"]] ∧
    (toTokens
        [{ secret := "s", username := "u", type_ := "client", expires_at := none,
           created_at := 0, seen_at := none, project := some "p1", environment := none },
         { secret := "s", username := "u", type_ := "client", expires_at := none,
           created_at := 0, seen_at := none, project := some "p1", environment := none }]).map
        (fun t => t.projects) ≠ [["p1"]] := by
  constructor
  · rfl
  · decide

/-- Claim C1 (amended): for a secret with at least one truthy project row,
the aggregated projects list is the whole sequence of truthy project
values of its rows in row order, repetitions kept; provided no row carries
the wildcard as its project value, the list never contains the wildcard. -/
theorem claim_C1_amended (rows : List TokenRow) (s : String)
    (hne : secretProjects s rows ≠ [])
    (hstar : ∀ p ∈ secretProjects s rows, p ≠ ALL) :
    ∃ tok, (toTokens rows).find? (fun t => t.secret == s) = some tok ∧
      tok.projects = secretProjects s rows ∧ ALL ∉ tok.projects := by
  have hfind := find?_toTokens rows s
  cases hrf : rowsFor s rows with
  | nil =>
    exfalso
    apply hne
    unfold secretProjects
    rw [hrf]
    rfl
  | cons r0 rs =>
    rw [hrf] at hfind
    have hproj : (applyRows (r0 :: rs) (seedToken r0)).projects = secretProjects s rows := by
      rw [applyRows_projects]
      have hps : (r0 :: rs).filterMap (fun r => truthyVal r.project) =
          secretProjects s rows := by
        unfold secretProjects
        rw [hrf]
      rw [hps]
      show scopeFold (secretProjects s rows) = secretProjects s rows
      exact scopeFold_concrete _ hne (fun hmem => (hstar ALL hmem) rfl)
    refine ⟨applyRows (r0 :: rs) (seedToken r0), hfind, hproj, ?_⟩
    rw [hproj]
    exact fun hmem => (hstar ALL hmem) rfl

/-- Claim C1 witness: a secret with rows for two projects and a duplicate. -/
theorem claim_C1_witness :
    ∃ tok, (toTokens
        [{ secret := "s", username := "u", type_ := "client", expires_at := none,
           created_at := 0, seen_at := none, project := some "p1", environment := none },
         { secret := "s", username := "u", type_ := "client", expires_at := none,
           created_at := 0, seen_at := none, project := some "p2", environment := some "e1" }]).find?
        (fun t => t.secret == "s") = some tok ∧
      tok.projects = secretProjects "s"
        [{ secret := "s", username := "u", type_ := "client", expires_at := none,
           created_at := 0, seen_at := none, project := some "p1", environment := none },
         { secret := "s", username := "u", type_ := "client", expires_at := none,
           created_at := 0, seen_at := none, project := some "p2", environment := some "e1" }] ∧
      ALL ∉ tok.projects :=
  claim_C1_amended _ "s" (by decide) (by decide)

/-- Claim C3 counterexample: a row carrying the wildcard as a concrete
project value after a concrete project yields a projects list holding both
the wildcard and a concrete entry. -/
theorem claim_C3_counterexample :
    (toTokens
        [{ secret := "s", username := "u", type_ := "client", expires_at := none,
           created_at := 0, seen_at := none, project := some "p1", environment := none },
         { secret := "s", username := "u", type_ := "client", expires_at := none,
           created_at := 0, seen_at := none, project := some "*", environment := none }]).map
        (fun t => t.projects) = [["p1", "*"]] ∧
    ¬(["p1", "*"] = [ALL] ∨ ALL ∉ ["p1", "*"]) := by
  constructor
  · rfl
  · decide

/-- Claim C3 (amended): provided no row carries the wildcard as its
project or environment value (which holds for every row the store itself
produces, since insert filters the sentinels out of the link tables),
every aggregated token has a projects list that is either exactly the
wildcard singleton or wildcard free, and likewise for environments. -/
theorem claim_C3_amended (rows : List TokenRow)
    (hstar : ∀ r ∈ rows, r.project ≠ some ALL ∧ r.environment ≠ some ALL) :
    ∀ tok ∈ toTokens rows,
      (tok.projects = [ALL] ∨ ALL ∉ tok.projects) ∧
      (tok.environments = [ALL] ∨ ALL ∉ tok.environments) := by
  intro tok ht
  have hstarP : ∀ p ∈ secretProjects tok.secret rows, p ≠ ALL := by
    intro p hp hcontra
    obtain ⟨r, hr, hsec, hproj⟩ := mem_secretProjects _ _ _ hp
    subst hcontra
    exact (hstar r hr).1 hproj
  have hstarE : ∀ e ∈ secretEnvironments tok.secret rows, e ≠ ALL := by
    intro e he hcontra
    obtain ⟨r, hr, hsec, henv⟩ := mem_secretEnvironments _ _ _ he
    subst hcontra
    exact (hstar r hr).2 henv
  constructor
  · rw [toTokens_projects_char rows tok ht]
    cases hps : secretProjects tok.secret rows with
    | nil => left; rw [scopeFold_nil]
    | cons p ps =>
      right
      have hnotin : ALL ∉ p :: ps := by
        rw [← hps]
        exact fun hmem => (hstarP ALL hmem) rfl
      rw [scopeFold_concrete _ (by simp) hnotin]
      exact hnotin
  · rw [toTokens_environments_char rows tok ht]
    cases hps : secretEnvironments tok.secret rows with
    | nil => left; rw [scopeFold_nil]
    | cons e es =>
      right
      have hnotin : ALL ∉ e :: es := by
        rw [← hps]
        exact fun hmem => (hstarE ALL hmem) rfl
      rw [scopeFold_concrete _ (by simp) hnotin]
      exact hnotin

/-- The concrete row list of the C3 witness. -/
def rowsC3W : List TokenRow :=
  [{ secret := "s", username := "u", type_ := "client", expires_at := none,
     created_at := 0, seen_at := none, project := some "p1", environment := some "e1" },
   { secret := "t", username := "u", type_ := "client", expires_at := none,
     created_at := 0, seen_at := none, project := none, environment := none }]

/-- The aggregated token of secret s in the C3 witness. -/
def tokC3W : IApiToken :=
  { secret := "s", username := "u", type_ := "client", project := "p1",
    projects := ["p1"], environment := "e1", environments := ["e1"],
    expiresAt := none, createdAt := 0 }

/-- Claim C3 witness: a token aggregated from concrete rows satisfies the
invariant. -/
theorem claim_C3_witness :
    (tokC3W.projects = [ALL] ∨ ALL ∉ tokC3W.projects) ∧
    (tokC3W.environments = [ALL] ∨ ALL ∉ tokC3W.environments) :=
  claim_C3_amended rowsC3W (by decide) tokC3W (by decide)

/-- Claim C10 (confirmed): the scalar fields of the aggregated token of a
secret are the ones of the first row of that secret; later rows of the
same secret never change them. -/
theorem claim_C10 (rows : List TokenRow) (s : String) (r0 : TokenRow)
    (rs : List TokenRow) (h : rowsFor s rows = r0 :: rs) :
    ∃ tok, (toTokens rows).find? (fun t => t.secret == s) = some tok ∧
      tok.secret = r0.secret ∧ tok.username = r0.username ∧
      tok.type_ = r0.type_ ∧ tok.expiresAt = r0.expires_at ∧
      tok.createdAt = r0.created_at := by
  have hfind := find?_toTokens rows s
  rw [h] at hfind
  refine ⟨applyRows (r0 :: rs) (seedToken r0), hfind, ?_, ?_, ?_, ?_, ?_⟩
  · rw [applyRows_secret]; rfl
  · rw [applyRows_username]; rfl
  · rw [applyRows_type]; rfl
  · rw [applyRows_expiresAt]; rfl
  · rw [applyRows_createdAt]; rfl

/-- Claim C10 witness: a second row with different scalar columns leaves
the first-row scalars in place. -/
theorem claim_C10_witness :
    ∃ tok, (toTokens
        [{ secret := "s", username := "u1", type_ := "client", expires_at := some 5,
           created_at := 1, seen_at := none, project := some "p1", environment := none },
         { secret := "s", username := "u2", type_ := "admin", expires_at := some 9,
           created_at := 2, seen_at := none, project := some "p2", environment := some "e1" }]).find?
        (fun t => t.secret == "s") = some tok ∧
      tok.secret = "s" ∧ tok.username = "u1" ∧ tok.type_ = "client" ∧
      tok.expiresAt = some 5 ∧ tok.createdAt = 1 :=
  claim_C10
    [{ secret := "s", username := "u1", type_ := "client", expires_at := some 5,
       created_at := 1, seen_at := none, project := some "p1", environment := none },
     { secret := "s", username := "u2", type_ := "admin", expires_at := some 9,
       created_at := 2, seen_at := none, project := some "p2", environment := some "e1" }]
    "s"
    { secret := "s", username := "u1", type_ := "client", expires_at := some 5,
      created_at := 1, seen_at := none, project := some "p1", environment := none }
    [{ secret := "s", username := "u2", type_ := "admin", expires_at := some 9,
       created_at := 2, seen_at := none, project := some "p2", environment := some "e1" }]
    (by decide)

theorem projects_wildcard_of_none (rows : List TokenRow) (s : String)
    (h : ∀ r ∈ rows, r.secret = s → r.project = none) (tok : IApiToken)
    (ht : tok ∈ toTokens rows) (hts : tok.secret = s) :
    tok.projects = [ALL] ∧ tok.project = ALL := by
  have hps : secretProjects tok.secret rows = [] := by
    rw [hts]
    exact secretProjects_nil_of_none rows s h
  have hproj : tok.projects = [ALL] := by
    rw [toTokens_projects_char rows tok ht, hps, scopeFold_nil]
  refine ⟨hproj, ?_⟩
  have hj := (toTokens_joined rows tok ht).1
  rw [hj, hproj, intercalate_all]

theorem environments_wildcard_of_none (rows : List TokenRow) (s : String)
    (h : ∀ r ∈ rows, r.secret = s → r.environment = none) (tok : IApiToken)
    (ht : tok ∈ toTokens rows) (hts : tok.secret = s) :
    tok.environments = [ALL] ∧ tok.environment = ALL := by
  have hps : secretEnvironments tok.secret rows = [] := by
    rw [hts]
    exact secretEnvironments_nil_of_none rows s h
  have henv : tok.environments = [ALL] := by
    rw [toTokens_environments_char rows tok ht, hps, scopeFold_nil]
  refine ⟨henv, ?_⟩
  have hj := (toTokens_joined rows tok ht).2
  rw [hj, henv, intercalate_all]

/-- Claim C8 (confirmed): a token whose rows never carry a non-null
project keeps the wildcard project scope, and independently for
environments; and a row sequence with no association values at all yields
exactly one fully wildcard token per distinct secret. -/
theorem claim_C8 (rows : List TokenRow) :
    (∀ s : String, (∀ r ∈ rows, r.secret = s → r.project = none) →
      ∀ tok ∈ toTokens rows, tok.secret = s →
        tok.projects = [ALL] ∧ tok.project = ALL) ∧
    (∀ s : String, (∀ r ∈ rows, r.secret = s → r.environment = none) →
      ∀ tok ∈ toTokens rows, tok.secret = s →
        tok.environments = [ALL] ∧ tok.environment = ALL) ∧
    ((∀ r ∈ rows, r.project = none ∧ r.environment = none) →
      ((toTokens rows).map (fun t => t.secret)).Nodup ∧
      (∀ s : String,
        s ∈ (toTokens rows).map (fun t => t.secret) ↔ ∃ r ∈ rows, r.secret = s) ∧
      ∀ tok ∈ toTokens rows,
        tok.projects = [ALL] ∧ tok.environments = [ALL] ∧
        tok.project = ALL ∧ tok.environment = ALL) := by
  refine ⟨?_, ?_, ?_⟩
  · intro s h tok ht hts
    exact projects_wildcard_of_none rows s h tok ht hts
  · intro s h tok ht hts
    exact environments_wildcard_of_none rows s h tok ht hts
  · intro h
    refine ⟨?_, ?_, ?_⟩
    · rw [toTokens_secrets]
      exact firstSecrets_nodup rows
    · intro s
      rw [toTokens_secrets]
      exact mem_firstSecrets rows s
    · intro tok ht
      have h1 := projects_wildcard_of_none rows tok.secret
        (fun r hr _ => (h r hr).1) tok ht rfl
      have h2 := environments_wildcard_of_none rows tok.secret
        (fun r hr _ => (h r hr).2) tok ht rfl
      exact ⟨h1.1, h2.1, h1.2, h2.2⟩

/-- The concrete row list of the C8 witness: one bare row per secret. -/
def rowsC8W : List TokenRow :=
  [{ secret := "s", username := "u", type_ := "client", expires_at := none,
     created_at := 0, seen_at := none, project := none, environment := none },
   { secret := "t", username := "v", type_ := "admin", expires_at := some 7,
     created_at := 1, seen_at := none, project := none, environment := none }]

/-- The aggregated token of secret s in the C8 witness. -/
def tokC8W : IApiToken :=
  { secret := "s", username := "u", type_ := "client", project := "*",
    projects := ["*"], environment := "*", environments := ["*"],
    expiresAt := none, createdAt := 0 }

/-- Claim C8 witness: two bare rows, two distinct secrets, one wildcard
token each. -/
theorem claim_C8_witness :
    ((toTokens rowsC8W).map (fun t => t.secret)).Nodup ∧
    ("s" ∈ (toTokens rowsC8W).map (fun t => t.secret) ↔
      ∃ r ∈ rowsC8W, r.secret = "s") ∧
    (tokC8W.projects = [ALL] ∧ tokC8W.environments = [ALL] ∧
      tokC8W.project = ALL ∧ tokC8W.environment = ALL) := by
  have h := (claim_C8 rowsC8W).2.2 (by decide)
  exact ⟨h.1, h.2.1 "s", h.2.2 tokC8W (by decide)⟩

theorem find?_projects_mem_char (rows : List TokenRow) (s x : String)
    (hstar : ∀ p ∈ secretProjects s rows, p ≠ ALL) :
    (∃ tok, (toTokens rows).find? (fun t => t.secret == s) = some tok ∧
        x ∈ tok.projects) ↔
      (rowsFor s rows ≠ [] ∧
        ((secretProjects s rows = [] ∧ x = ALL) ∨ x ∈ secretProjects s rows)) := by
  have hfind := find?_toTokens rows s
  cases hrf : rowsFor s rows with
  | nil =>
    rw [hrf] at hfind
    constructor
    · rintro ⟨tok, htok, hx⟩
      rw [hfind] at htok
      exact absurd htok (by simp)
    · rintro ⟨hne, hcase⟩
      exact absurd rfl hne
  | cons r0 rs =>
    rw [hrf] at hfind
    have hproj : (applyRows (r0 :: rs) (seedToken r0)).projects =
        scopeFold (secretProjects s rows) := by
      rw [applyRows_projects]
      have hps : (r0 :: rs).filterMap (fun r => truthyVal r.project) =
          secretProjects s rows := by
        unfold secretProjects
        rw [hrf]
      rw [hps]
      rfl
    constructor
    · rintro ⟨tok, htok, hx⟩
      rw [hfind] at htok
      have heq : applyRows (r0 :: rs) (seedToken r0) = tok := Option.some.inj htok
      rw [← heq, hproj] at hx
      exact ⟨by simp, (scopeFold_mem_char _ (fun hmem => (hstar ALL hmem) rfl) x).mp hx⟩
    · rintro ⟨hne, hcase⟩
      refine ⟨applyRows (r0 :: rs) (seedToken r0), hfind, ?_⟩
      rw [hproj]
      exact (scopeFold_mem_char _ (fun hmem => (hstar ALL hmem) rfl) x).mpr hcase

theorem find?_environments_mem_char (rows : List TokenRow) (s x : String)
    (hstar : ∀ e ∈ secretEnvironments s rows, e ≠ ALL) :
    (∃ tok, (toTokens rows).find? (fun t => t.secret == s) = some tok ∧
        x ∈ tok.environments) ↔
      (rowsFor s rows ≠ [] ∧
        ((secretEnvironments s rows = [] ∧ x = ALL) ∨
          x ∈ secretEnvironments s rows)) := by
  have hfind := find?_toTokens rows s
  cases hrf : rowsFor s rows with
  | nil =>
    rw [hrf] at hfind
    constructor
    · rintro ⟨tok, htok, hx⟩
      rw [hfind] at htok
      exact absurd htok (by simp)
    · rintro ⟨hne, hcase⟩
      exact absurd rfl hne
  | cons r0 rs =>
    rw [hrf] at hfind
    have henv : (applyRows (r0 :: rs) (seedToken r0)).environments =
        scopeFold (secretEnvironments s rows) := by
      rw [applyRows_environments]
      have hps : (r0 :: rs).filterMap (fun r => truthyVal r.environment) =
          secretEnvironments s rows := by
        unfold secretEnvironments
        rw [hrf]
      rw [hps]
      rfl
    constructor
    · rintro ⟨tok, htok, hx⟩
      rw [hfind] at htok
      have heq : applyRows (r0 :: rs) (seedToken r0) = tok := Option.some.inj htok
      rw [← heq, henv] at hx
      exact ⟨by simp, (scopeFold_mem_char _ (fun hmem => (hstar ALL hmem) rfl) x).mp hx⟩
    · rintro ⟨hne, hcase⟩
      refine ⟨applyRows (r0 :: rs) (seedToken r0), hfind, ?_⟩
      rw [henv]
      exact (scopeFold_mem_char _ (fun hmem => (hstar ALL hmem) rfl) x).mpr hcase

/-- Rows for the C9 counterexample: a concrete project then the wildcard
as a literal project value. -/
def rowsC9A : List TokenRow :=
  [{ secret := "s", username := "u", type_ := "client", expires_at := none,
     created_at := 0, seen_at := none, project := some "p1", environment := none },
   { secret := "s", username := "u", type_ := "client", expires_at := none,
     created_at := 0, seen_at := none, project := some "*", environment := none }]

/-- The same two rows in the opposite order. -/
def rowsC9B : List TokenRow :=
  [{ secret := "s", username := "u", type_ := "client", expires_at := none,
     created_at := 0, seen_at := none, project := some "*", environment := none },
   { secret := "s", username := "u", type_ := "client", expires_at := none,
     created_at := 0, seen_at := none, project := some "p1", environment := none }]

/-- Claim C9 counterexample: the two orders of the same rows give project
sets with different membership: one contains the wildcard, the other does
not. -/
theorem claim_C9_counterexample :
    List.Perm rowsC9A rowsC9B ∧
    (toTokens rowsC9A).map (fun t => t.projects) = [["p1", "*"]] ∧
    (toTokens rowsC9B).map (fun t => t.projects) = [["p1"]] ∧
    ALL ∈ (["p1", "*"] : List String) ∧ ALL ∉ (["p1"] : List String) := by
  refine ⟨by decide, rfl, rfl, by decide, by decide⟩

/-- Claim C9 (amended): provided no row carries the wildcard as a literal
project or environment value, permuting the rows preserves the membership
of every aggregated token scope, for projects and environments alike. -/
theorem claim_C9_amended (rows1 rows2 : List TokenRow) (hperm : rows1.Perm rows2)
    (hstar : ∀ r ∈ rows1, r.project ≠ some ALL ∧ r.environment ≠ some ALL)
    (s x : String) :
    ((∃ tok, (toTokens rows1).find? (fun t => t.secret == s) = some tok ∧
        x ∈ tok.projects) ↔
      (∃ tok, (toTokens rows2).find? (fun t => t.secret == s) = some tok ∧
        x ∈ tok.projects)) ∧
    ((∃ tok, (toTokens rows1).find? (fun t => t.secret == s) = some tok ∧
        x ∈ tok.environments) ↔
      (∃ tok, (toTokens rows2).find? (fun t => t.secret == s) = some tok ∧
        x ∈ tok.environments)) := by
  have hstar2 : ∀ r ∈ rows2, r.project ≠ some ALL ∧ r.environment ≠ some ALL :=
    fun r hr => hstar r (hperm.mem_iff.mpr hr)
  have hstarP1 : ∀ p ∈ secretProjects s rows1, p ≠ ALL := by
    intro p hp hc
    subst hc
    obtain ⟨r, hr, _, hproj⟩ := mem_secretProjects _ _ _ hp
    exact (hstar r hr).1 hproj
  have hstarP2 : ∀ p ∈ secretProjects s rows2, p ≠ ALL := by
    intro p hp hc
    subst hc
    obtain ⟨r, hr, _, hproj⟩ := mem_secretProjects _ _ _ hp
    exact (hstar2 r hr).1 hproj
  have hstarE1 : ∀ e ∈ secretEnvironments s rows1, e ≠ ALL := by
    intro e he hc
    subst hc
    obtain ⟨r, hr, _, henv⟩ := mem_secretEnvironments _ _ _ he
    exact (hstar r hr).2 henv
  have hstarE2 : ∀ e ∈ secretEnvironments s rows2, e ≠ ALL := by
    intro e he hc
    subst hc
    obtain ⟨r, hr, _, henv⟩ := mem_secretEnvironments _ _ _ he
    exact (hstar2 r hr).2 henv
  have hpermF : (rowsFor s rows1).Perm (rowsFor s rows2) :=
    List.Perm.filter _ hperm
  have hpermP : (secretProjects s rows1).Perm (secretProjects s rows2) :=
    List.Perm.filterMap _ hpermF
  have hpermE : (secretEnvironments s rows1).Perm (secretEnvironments s rows2) :=
    List.Perm.filterMap _ hpermF
  have hne_iff : rowsFor s rows1 = [] ↔ rowsFor s rows2 = [] := by
    constructor
    · intro h
      exact List.Perm.eq_nil (h ▸ hpermF).symm
    · intro h
      exact List.Perm.eq_nil (h ▸ hpermF)
  have hpnil_iff : secretProjects s rows1 = [] ↔ secretProjects s rows2 = [] := by
    constructor
    · intro h
      exact List.Perm.eq_nil (h ▸ hpermP).symm
    · intro h
      exact List.Perm.eq_nil (h ▸ hpermP)
  have henil_iff : secretEnvironments s rows1 = [] ↔
      secretEnvironments s rows2 = [] := by
    constructor
    · intro h
      exact List.Perm.eq_nil (h ▸ hpermE).symm
    · intro h
      exact List.Perm.eq_nil (h ▸ hpermE)
  constructor
  · rw [find?_projects_mem_char rows1 s x hstarP1,
        find?_projects_mem_char rows2 s x hstarP2]
    constructor
    · rintro ⟨hne, hcase⟩
      refine ⟨fun hc => hne (hne_iff.mpr hc), ?_⟩
      rcases hcase with ⟨hnil, hx⟩ | hx
      · exact Or.inl ⟨hpnil_iff.mp hnil, hx⟩
      · exact Or.inr (hpermP.mem_iff.mp hx)
    · rintro ⟨hne, hcase⟩
      refine ⟨fun hc => hne (hne_iff.mp hc), ?_⟩
      rcases hcase with ⟨hnil, hx⟩ | hx
      · exact Or.inl ⟨hpnil_iff.mpr hnil, hx⟩
      · exact Or.inr (hpermP.mem_iff.mpr hx)
  · rw [find?_environments_mem_char rows1 s x hstarE1,
        find?_environments_mem_char rows2 s x hstarE2]
    constructor
    · rintro ⟨hne, hcase⟩
      refine ⟨fun hc => hne (hne_iff.mpr hc), ?_⟩
      rcases hcase with ⟨hnil, hx⟩ | hx
      · exact Or.inl ⟨henil_iff.mp hnil, hx⟩
      · exact Or.inr (hpermE.mem_iff.mp hx)
    · rintro ⟨hne, hcase⟩
      refine ⟨fun hc => hne (hne_iff.mp hc), ?_⟩
      rcases hcase with ⟨hnil, hx⟩ | hx
      · exact Or.inl ⟨henil_iff.mpr hnil, hx⟩
      · exact Or.inr (hpermE.mem_iff.mpr hx)

/-- Rows for the C9 witness, in one order. -/
def rowsC9W1 : List TokenRow :=
  [{ secret := "s", username := "u", type_ := "client", expires_at := none,
     created_at := 0, seen_at := none, project := some "p1", environment := some "e1" },
   { secret := "s", username := "u", type_ := "client", expires_at := none,
     created_at := 0, seen_at := none, project := some "p2", environment := none }]

/-- The same rows in the opposite order. -/
def rowsC9W2 : List TokenRow :=
  [{ secret := "s", username := "u", type_ := "client", expires_at := none,
     created_at := 0, seen_at := none, project := some "p2", environment := none },
   { secret := "s", username := "u", type_ := "client", expires_at := none,
     created_at := 0, seen_at := none, project := some "p1", environment := some "e1" }]

/-- Claim C9 witness: membership agreement on a concrete permuted pair. -/
theorem claim_C9_witness :
    ((∃ tok, (toTokens rowsC9W1).find? (fun t => t.secret == "s") = some tok ∧
        "p1" ∈ tok.projects) ↔
      (∃ tok, (toTokens rowsC9W2).find? (fun t => t.secret == "s") = some tok ∧
        "p1" ∈ tok.projects)) ∧
    ((∃ tok, (toTokens rowsC9W1).find? (fun t => t.secret == "s") = some tok ∧
        "p1" ∈ tok.environments) ↔
      (∃ tok, (toTokens rowsC9W2).find? (fun t => t.secret == "s") = some tok ∧
        "p1" ∈ tok.environments)) :=
  claim_C9_amended rowsC9W1 rowsC9W2 (by decide) (by decide) "s" "p1"

namespace ApiTokenStore

theorem leftOpt_ne_nil (xs : List String) : leftOpt xs ≠ [] := by
  cases xs <;> simp [leftOpt]

theorem mem_rowsOfToken (st : StoreState) (t : TokenTableRow) (r : TokenRow)
    (h : r ∈ rowsOfToken st t) :
    r.secret = t.secret ∧ r.expires_at = t.expires_at := by
  unfold rowsOfToken at h
  rw [List.mem_flatMap] at h
  obtain ⟨p, hp, hr⟩ := h
  rw [List.mem_map] at hr
  obtain ⟨e, he, hre⟩ := hr
  subst hre
  exact ⟨rfl, rfl⟩

theorem rowsOfToken_ne_nil (st : StoreState) (t : TokenTableRow) :
    rowsOfToken st t ≠ [] := by
  unfold rowsOfToken
  cases hp : leftOpt (linksFor st.tokenProjects t.secret) with
  | nil => exact absurd hp (leftOpt_ne_nil _)
  | cons p ps =>
    rw [List.flatMap_cons]
    cases he : leftOpt (linksFor st.tokenEnvironments t.secret) with
    | nil => exact absurd he (leftOpt_ne_nil _)
    | cons e es => simp

theorem filter_secret_flatMap (st : StoreState) (ts : List TokenTableRow) (s : String) :
    (ts.flatMap (rowsOfToken st)).filter (fun r => r.secret == s) =
      (ts.filter (fun t => t.secret == s)).flatMap (rowsOfToken st) := by
  induction ts with
  | nil => rfl
  | cons t ts ih =>
    rw [List.flatMap_cons, List.filter_append, ih, List.filter_cons]
    by_cases h : (t.secret == s) = true
    · rw [if_pos h, List.flatMap_cons]
      congr 1
      apply List.filter_eq_self.mpr
      intro r hr
      rw [(mem_rowsOfToken st t r hr).1]
      exact h
    · rw [if_neg h]
      have hnil : (rowsOfToken st t).filter (fun r => r.secret == s) = [] := by
        apply List.filter_eq_nil_iff.mpr
        intro r hr hc
        apply h
        rw [← (mem_rowsOfToken st t r hr).1]
        exact hc
      rw [hnil, List.nil_append]

theorem filter_active_flatMap (st : StoreState) (ts : List TokenTableRow) (now : Int) :
    (ts.flatMap (rowsOfToken st)).filter (rowIsActive now) =
      (ts.filter (tokenIsActive now)).flatMap (rowsOfToken st) := by
  induction ts with
  | nil => rfl
  | cons t ts ih =>
    rw [List.flatMap_cons, List.filter_append, ih, List.filter_cons]
    by_cases h : tokenIsActive now t = true
    · rw [if_pos h, List.flatMap_cons]
      congr 1
      apply List.filter_eq_self.mpr
      intro r hr
      have hexp := (mem_rowsOfToken st t r hr).2
      unfold tokenIsActive at h
      unfold rowIsActive
      rw [hexp]
      exact h
    · rw [if_neg h]
      have hnil : (rowsOfToken st t).filter (rowIsActive now) = [] := by
        apply List.filter_eq_nil_iff.mpr
        intro r hr hc
        apply h
        have hexp := (mem_rowsOfToken st t r hr).2
        unfold rowIsActive at hc
        unfold tokenIsActive
        rw [← hexp]
        exact hc
      rw [hnil, List.nil_append]

theorem linksFor_append (a b : List (String × String)) (s : String) :
    linksFor (a ++ b) s = linksFor a s ++ linksFor b s := by
  unfold linksFor
  rw [List.filter_append, List.map_append]

theorem linksFor_nil_of_fresh (links : List (String × String)) (s : String)
    (h : ∀ l ∈ links, l.1 ≠ s) : linksFor links s = [] := by
  unfold linksFor
  have hf : links.filter (fun l => l.1 == s) = [] := by
    apply List.filter_eq_nil_iff.mpr
    intro l hl hc
    exact h l hl (beq_iff_eq.mp hc)
  rw [hf]
  rfl

theorem linksFor_map_self (xs : List String) (s : String) :
    linksFor (xs.map (fun x => (s, x))) s = xs := by
  induction xs with
  | nil => rfl
  | cons x xs ih =>
    unfold linksFor at ih ⊢
    rw [List.map_cons, List.filter_cons, if_pos (by simp), List.map_cons, ih]

theorem makeQuery_filter_secret (st : StoreState) (s : String) :
    (makeTokenProjectQuery st).filter (fun r => r.secret == s) =
      (st.tokens.filter (fun t => t.secret == s)).flatMap (rowsOfToken st) :=
  filter_secret_flatMap st st.tokens s

theorem makeQuery_filter_active (st : StoreState) (now : Int) :
    (makeTokenProjectQuery st).filter (rowIsActive now) =
      makeTokenProjectQuery { st with tokens := st.tokens.filter (tokenIsActive now) } := by
  unfold makeTokenProjectQuery
  exact filter_active_flatMap st st.tokens now

end ApiTokenStore

/-- Claim C4 (confirmed): getAllActive returns exactly the aggregation of
the token rows whose expiry is null or strictly later than the current
time; every returned token corresponds to such a row and every such row
contributes a token. -/
theorem claim_C4 (st : StoreState) (now : Int) :
    ApiTokenStore.getAllActive now st =
      ApiTokenStore.getAll
        { st with tokens := st.tokens.filter (ApiTokenStore.tokenIsActive now) } ∧
    (∀ tok ∈ ApiTokenStore.getAllActive now st, ∃ tr ∈ st.tokens,
        tr.secret = tok.secret ∧ ApiTokenStore.tokenIsActive now tr = true) ∧
    (∀ tr ∈ st.tokens, ApiTokenStore.tokenIsActive now tr = true →
        ∃ tok ∈ ApiTokenStore.getAllActive now st, tok.secret = tr.secret) := by
  have heq : ApiTokenStore.getAllActive now st =
      ApiTokenStore.getAll
        { st with tokens := st.tokens.filter (ApiTokenStore.tokenIsActive now) } := by
    unfold ApiTokenStore.getAllActive ApiTokenStore.getAll
    rw [ApiTokenStore.makeQuery_filter_active]
  refine ⟨heq, ?_, ?_⟩
  · intro tok ht
    rw [heq] at ht
    have hmem : tok.secret ∈
        (ApiTokenStore.getAll
          { st with tokens := st.tokens.filter (ApiTokenStore.tokenIsActive now) }).map
          (fun t => t.secret) :=
      List.mem_map.mpr ⟨tok, ht, rfl⟩
    unfold ApiTokenStore.getAll at hmem
    rw [toTokens_secrets, mem_firstSecrets] at hmem
    obtain ⟨r, hr, hrs⟩ := hmem
    unfold ApiTokenStore.makeTokenProjectQuery at hr
    rw [List.mem_flatMap] at hr
    obtain ⟨tr, htr, hrin⟩ := hr
    rw [List.mem_filter] at htr
    refine ⟨tr, htr.1, ?_, htr.2⟩
    rw [← hrs, (ApiTokenStore.mem_rowsOfToken _ _ _ hrin).1]
  · intro tr htr hact
    obtain ⟨r, hrin⟩ : ∃ r, r ∈ ApiTokenStore.rowsOfToken st tr := by
      cases hro : ApiTokenStore.rowsOfToken st tr with
      | nil => exact absurd hro (ApiTokenStore.rowsOfToken_ne_nil st tr)
      | cons a l => exact ⟨a, hro ▸ List.mem_cons_self a l⟩
    have hrjoin : r ∈ ApiTokenStore.makeTokenProjectQuery
        { st with tokens := st.tokens.filter (ApiTokenStore.tokenIsActive now) } := by
      unfold ApiTokenStore.makeTokenProjectQuery
      rw [List.mem_flatMap]
      exact ⟨tr, List.mem_filter.mpr ⟨htr, hact⟩, hrin⟩
    have hsec : tr.secret ∈ (ApiTokenStore.getAllActive now st).map (fun t => t.secret) := by
      rw [heq]
      unfold ApiTokenStore.getAll
      rw [toTokens_secrets, mem_firstSecrets]
      exact ⟨r, hrjoin, (ApiTokenStore.mem_rowsOfToken _ _ _ hrin).1⟩
    obtain ⟨tok, htok, hts⟩ := List.mem_map.mp hsec
    exact ⟨tok, htok, hts⟩

/-- The concrete store of the C4 witness: one live token, one expired
token, one token with no expiry. -/
def stC4W : StoreState :=
  { tokens :=
      [{ secret := "live", username := "u", type_ := "client",
         expires_at := some 20, created_at := 0, seen_at := none },
       { secret := "dead", username := "u", type_ := "client",
         expires_at := some 5, created_at := 0, seen_at := none },
       { secret := "forever", username := "u", type_ := "client",
         expires_at := none, created_at := 0, seen_at := none }],
    tokenProjects := [("live", "p1")],
    tokenEnvironments := [] }

/-- Claim C4 witness: at time 10 the filtered equality holds and the live
token is returned. -/
theorem claim_C4_witness :
    ApiTokenStore.getAllActive 10 stC4W =
      ApiTokenStore.getAll
        { stC4W with tokens := stC4W.tokens.filter (ApiTokenStore.tokenIsActive 10) } ∧
    (∃ tok ∈ ApiTokenStore.getAllActive 10 stC4W, tok.secret = "live") := by
  have h := claim_C4 stC4W 10
  exact ⟨h.1, h.2.2
    { secret := "live", username := "u", type_ := "client",
      expires_at := some 20, created_at := 0, seen_at := none }
    (by decide) (by decide)⟩

namespace ApiTokenStore

theorem mem_returnedRows (st : StoreState) (secret : String) (exp : Int)
    (t : TokenTableRow) (ht : t ∈ returnedRows st secret exp) :
    t.secret = secret ∧ t.expires_at = some exp := by
  unfold returnedRows updatedTokens at ht
  rw [List.mem_filter] at ht
  obtain ⟨hmem, hsec⟩ := ht
  rw [List.mem_map] at hmem
  obtain ⟨t0, ht0, hupd⟩ := hmem
  have hsecP : t.secret = secret := by simpa using hsec
  by_cases h0 : (t0.secret == secret) = true
  · rw [if_pos h0] at hupd
    subst hupd
    exact ⟨hsecP, rfl⟩
  · rw [if_neg h0] at hupd
    subst hupd
    exact absurd (beq_iff_eq.mpr hsecP) h0

theorem returnedRows_ne_nil (st : StoreState) (secret : String) (exp : Int)
    (t0 : TokenTableRow) (ht0 : t0 ∈ st.tokens) (hs : t0.secret = secret) :
    returnedRows st secret exp ≠ [] := by
  have hmem : ({ t0 with expires_at := some exp } : TokenTableRow) ∈
      updatedTokens st secret exp := by
    unfold updatedTokens
    rw [List.mem_map]
    exact ⟨t0, ht0, by rw [if_pos (beq_iff_eq.mpr hs)]⟩
  have hret : ({ t0 with expires_at := some exp } : TokenTableRow) ∈
      returnedRows st secret exp := by
    unfold returnedRows
    rw [List.mem_filter]
    exact ⟨hmem, by simpa using hs⟩
  exact List.ne_nil_of_mem hret

theorem returnedRows_nil (st : StoreState) (secret : String) (exp : Int)
    (h : ∀ t ∈ st.tokens, t.secret ≠ secret) :
    returnedRows st secret exp = [] := by
  unfold returnedRows updatedTokens
  apply List.filter_eq_nil_iff.mpr
  intro t ht hc
  rw [List.mem_map] at ht
  obtain ⟨t0, ht0, hupd⟩ := ht
  have hne := h t0 ht0
  by_cases h0 : (t0.secret == secret) = true
  · exact hne (beq_iff_eq.mp h0)
  · rw [if_neg h0] at hupd
    subst hupd
    exact h0 hc

end ApiTokenStore

/-- Claim C5 (confirmed): setExpiry raises NotFound exactly when no token
row matches the secret; on a match it returns an aggregated token carrying
the new expiry, and get on the resulting store reflects the new expiry. -/
theorem claim_C5 (st : StoreState) (secret : String) (exp : Int) :
    ((∀ t ∈ st.tokens, t.secret ≠ secret) →
      ApiTokenStore.setExpiry st secret exp = .error .notFound) ∧
    (∀ t0 ∈ st.tokens, t0.secret = secret →
      ∃ tok, ApiTokenStore.setExpiry st secret exp =
          .ok (some tok, { st with tokens := ApiTokenStore.updatedTokens st secret exp }) ∧
        tok.expiresAt = some exp ∧
        ∃ g, ApiTokenStore.get
            { st with tokens := ApiTokenStore.updatedTokens st secret exp } secret =
            some g ∧ g.expiresAt = some exp) := by
  constructor
  · intro h
    unfold ApiTokenStore.setExpiry
    rw [ApiTokenStore.returnedRows_nil st secret exp h]
    rfl
  · intro t0 ht0 hs
    have hnenil := ApiTokenStore.returnedRows_ne_nil st secret exp t0 ht0 hs
    have hall : ∀ t ∈ ApiTokenStore.returnedRows st secret exp,
        t.secret = secret ∧ t.expires_at = some exp :=
      fun t ht => ApiTokenStore.mem_returnedRows st secret exp t ht
    cases hret : ApiTokenStore.returnedRows st secret exp with
    | nil => exact absurd hret hnenil
    | cons r0 rrest =>
      have hlen : (ApiTokenStore.returnedRows st secret exp).length > 0 := by
        rw [hret]
        simp
      have hsetexp : ApiTokenStore.setExpiry st secret exp =
          .ok ((toTokens ((ApiTokenStore.returnedRows st secret exp).map
              ApiTokenStore.rowOfTokenTable)).head?,
            { st with tokens := ApiTokenStore.updatedTokens st secret exp }) := by
        unfold ApiTokenStore.setExpiry
        rw [if_pos hlen]
      have hrows : (ApiTokenStore.returnedRows st secret exp).map
          ApiTokenStore.rowOfTokenTable =
          ApiTokenStore.rowOfTokenTable r0 :: rrest.map ApiTokenStore.rowOfTokenTable := by
        rw [hret, List.map_cons]
      have hallrows : ∀ r ∈ ApiTokenStore.rowOfTokenTable r0 ::
          rrest.map ApiTokenStore.rowOfTokenTable, r.secret = secret := by
        intro r hr
        rw [← hrows] at hr
        rw [List.mem_map] at hr
        obtain ⟨t, ht, hrt⟩ := hr
        subst hrt
        exact (hall t ht).1
      have htt := toTokens_single_secret secret (ApiTokenStore.rowOfTokenTable r0)
        (rrest.map ApiTokenStore.rowOfTokenTable) hallrows
      have hr0mem : r0 ∈ ApiTokenStore.returnedRows st secret exp := by
        rw [hret]
        exact List.mem_cons_self _ _
      refine ⟨applyRows (ApiTokenStore.rowOfTokenTable r0 ::
          rrest.map ApiTokenStore.rowOfTokenTable)
          (seedToken (ApiTokenStore.rowOfTokenTable r0)), ?_, ?_, ?_⟩
      · rw [hsetexp, hrows, htt]
        rfl
      · rw [applyRows_expiresAt]
        exact (hall r0 hr0mem).2
      · have hq := ApiTokenStore.makeQuery_filter_secret
          { st with tokens := ApiTokenStore.updatedTokens st secret exp } secret
        have hflat : (ApiTokenStore.returnedRows st secret exp).flatMap
            (ApiTokenStore.rowsOfToken
              { st with tokens := ApiTokenStore.updatedTokens st secret exp }) =
            ApiTokenStore.rowsOfToken
              { st with tokens := ApiTokenStore.updatedTokens st secret exp } r0 ++
              rrest.flatMap (ApiTokenStore.rowsOfToken
                { st with tokens := ApiTokenStore.updatedTokens st secret exp }) := by
          rw [hret, List.flatMap_cons]
        cases hro : ApiTokenStore.rowsOfToken
            { st with tokens := ApiTokenStore.updatedTokens st secret exp } r0 with
        | nil => exact absurd hro (ApiTokenStore.rowsOfToken_ne_nil _ _)
        | cons g0 grest =>
          rw [hro, List.cons_append] at hflat
          have hallg : ∀ g ∈ (ApiTokenStore.returnedRows st secret exp).flatMap
              (ApiTokenStore.rowsOfToken
                { st with tokens := ApiTokenStore.updatedTokens st secret exp }),
              g.secret = secret ∧ g.expires_at = some exp := by
            intro g hg
            rw [List.mem_flatMap] at hg
            obtain ⟨t, ht, hgin⟩ := hg
            obtain ⟨h1, h2⟩ := ApiTokenStore.mem_rowsOfToken _ _ _ hgin
            obtain ⟨h3, h4⟩ := hall t ht
            exact ⟨h1.trans h3, h2.trans h4⟩
          have hallsec : ∀ g ∈ g0 :: (grest ++ rrest.flatMap
              (ApiTokenStore.rowsOfToken
                { st with tokens := ApiTokenStore.updatedTokens st secret exp })),
              g.secret = secret := by
            intro g hg
            rw [← hflat] at hg
            exact (hallg g hg).1
          have htt2 := toTokens_single_secret secret g0
            (grest ++ rrest.flatMap (ApiTokenStore.rowsOfToken
              { st with tokens := ApiTokenStore.updatedTokens st secret exp }))
            hallsec
          have hg0 : g0.expires_at = some exp := by
            have hg0mem : g0 ∈ (ApiTokenStore.returnedRows st secret exp).flatMap
                (ApiTokenStore.rowsOfToken
                  { st with tokens := ApiTokenStore.updatedTokens st secret exp }) := by
              rw [hflat]
              exact List.mem_cons_self _ _
            exact (hallg g0 hg0mem).2
          refine ⟨applyRows (g0 :: (grest ++ rrest.flatMap
              (ApiTokenStore.rowsOfToken
                { st with tokens := ApiTokenStore.updatedTokens st secret exp })))
              (seedToken g0), ?_, ?_⟩
          · unfold ApiTokenStore.get
            have hbridge : List.filter (fun t => t.secret == secret)
                ({ st with tokens := ApiTokenStore.updatedTokens st secret exp } : StoreState).tokens =
                ApiTokenStore.returnedRows st secret exp := rfl
            rw [hq, hbridge, hflat, htt2]
            rfl
          · rw [applyRows_expiresAt]
            exact hg0

/-- The concrete store of the C5 witness. -/
def stC5W : StoreState :=
  { tokens :=
      [{ secret := "s1", username := "u", type_ := "client",
         expires_at := some 3, created_at := 0, seen_at := none }],
    tokenProjects := [("s1", "p1")],
    tokenEnvironments := [] }

/-- Claim C5 witness: updating the expiry of a stored token succeeds and
get reflects it. -/
theorem claim_C5_witness :
    ∃ tok, ApiTokenStore.setExpiry stC5W "s1" 42 =
        .ok (some tok, { stC5W with tokens := ApiTokenStore.updatedTokens stC5W "s1" 42 }) ∧
      tok.expiresAt = some 42 ∧
      ∃ g, ApiTokenStore.get
          { stC5W with tokens := ApiTokenStore.updatedTokens stC5W "s1" 42 } "s1" =
          some g ∧ g.expiresAt = some 42 :=
  (claim_C5 stC5W "s1" 42).2
    { secret := "s1", username := "u", type_ := "client",
      expires_at := some 3, created_at := 0, seen_at := none }
    (by decide) rfl

/-- The empty store used by several witnesses. -/
def stEmpty : StoreState :=
  { tokens := [], tokenProjects := [], tokenEnvironments := [] }

/-- Claim C6 (confirmed): markSeenAt returns normally for every behaviour
of the storage layer; a failing update is converted into a logged message
only, with the store state unchanged. -/
theorem claim_C6 (dbUpdate : Except StoreError StoreState) (st : StoreState) :
    (ApiTokenStore.markSeenAt dbUpdate st).isOk = true ∧
    (∀ e : StoreError, dbUpdate = .error e →
      ApiTokenStore.markSeenAt dbUpdate st =
        .ok (st, some "Could not update lastSeen, error: ")) := by
  cases dbUpdate with
  | ok st2 =>
    refine ⟨rfl, ?_⟩
    intro e he
    exact absurd he (by simp)
  | error e =>
    refine ⟨rfl, ?_⟩
    intro e2 he
    rfl

/-- Claim C6 witness: a storage layer that throws is swallowed into a log
line. -/
theorem claim_C6_witness :
    (ApiTokenStore.markSeenAt (.error .storageFailure) stEmpty).isOk = true ∧
    ApiTokenStore.markSeenAt (.error .storageFailure) stEmpty =
      .ok (stEmpty, some "Could not update lastSeen, error: ") := by
  have h := claim_C6 (.error .storageFailure) stEmpty
  exact ⟨h.1, h.2 .storageFailure rfl⟩

/-- Claim C7 (confirmed): insert is one transaction; when any of its
statements fails the caller keeps the pre-transaction state, so a secret
absent before the call is still absent afterwards. -/
theorem claim_C7 (failProject failEnvironment : String → Bool) (st : StoreState)
    (newToken : IApiTokenCreate) (now : Int) (e : StoreError)
    (hfail : ApiTokenStore.insert failProject failEnvironment st newToken now = .error e)
    (hno : ApiTokenStore.existsSecret st newToken.secret = false) :
    ApiTokenStore.insertOutcome failProject failEnvironment st newToken now = st ∧
    ApiTokenStore.existsSecret
      (ApiTokenStore.insertOutcome failProject failEnvironment st newToken now)
      newToken.secret = false := by
  have hout : ApiTokenStore.insertOutcome failProject failEnvironment st newToken now = st := by
    unfold ApiTokenStore.insertOutcome
    rw [hfail]
  refine ⟨hout, ?_⟩
  rw [hout]
  exact hno

/-- The token-creation request of the C7 witness. -/
def ntC7W : IApiTokenCreate :=
  { secret := "s1", username := "u", type_ := "client",
    projects := some ["p1"], environments := none, expiresAt := none }

/-- Claim C7 witness: a failing project link insert leaves no token row
behind. -/
theorem claim_C7_witness :
    ApiTokenStore.insertOutcome (fun p => p == "p1") (fun _ => false)
      stEmpty ntC7W 0 = stEmpty ∧
    ApiTokenStore.existsSecret
      (ApiTokenStore.insertOutcome (fun p => p == "p1") (fun _ => false)
        stEmpty ntC7W 0) "s1" = false :=
  claim_C7 (fun p => p == "p1") (fun _ => false) stEmpty ntC7W 0
    StoreError.linkInsertFailure rfl rfl

theorem filterMap_const_none {α β : Type} (l : List α) :
    l.filterMap (fun _ => (none : Option β)) = [] :=
  List.filterMap_eq_nil_iff.mpr (fun _ _ => rfl)

theorem filterMap_truthy_concrete (xs : List String) (h : ∀ x ∈ xs, x ≠ "") :
    xs.filterMap (fun x => truthyVal (some x)) = xs := by
  induction xs with
  | nil => rfl
  | cons x xs ih =>
    have hx : truthyVal (some x) = some x := by
      unfold truthyVal truthy
      rw [if_pos (by simp [h x (List.mem_cons_self x xs)])]
      rfl
    rw [List.filterMap_cons, hx]
    show x :: xs.filterMap (fun x => truthyVal (some x)) = x :: xs
    rw [ih (fun y hy => h y (List.mem_cons_of_mem _ hy))]

/-- A store whose join rows for a secret form one nonempty single-secret
block yields that block aggregated as the single result of get. -/
theorem get_single_token (st2 : StoreState) (s : String) (r0 : TokenRow)
    (rs : List TokenRow)
    (hfilt : (ApiTokenStore.makeTokenProjectQuery st2).filter
        (fun r => r.secret == s) = r0 :: rs)
    (hall : ∀ r ∈ r0 :: rs, r.secret = s) :
    ApiTokenStore.get st2 s = some (applyRows (r0 :: rs) (seedToken r0)) := by
  unfold ApiTokenStore.get
  rw [hfilt, toTokens_single_secret s r0 rs hall]
  rfl

theorem flatMap_single_of (l : List String) (g : Option String → List TokenRow)
    (f : Option String → TokenRow) (hg : ∀ p, g p = [f p]) :
    (l.map some).flatMap g = l.map (fun x => f (some x)) := by
  induction l with
  | nil => rfl
  | cons a l ih => rw [List.map_cons, List.flatMap_cons, hg, ih]; rfl

theorem singleton_shape (l : List String) (hne : l ≠ []) (hlen : l.length ≤ 1) :
    ∃ a, l = [a] := by
  cases l with
  | nil => exact absurd rfl hne
  | cons a l2 =>
    cases l2 with
    | nil => exact ⟨a, rfl⟩
    | cons b l3 => simp at hlen

/-- The state insert commits for a fresh secret: the token row appended
to the token table and the two link groups appended to the link tables. -/
def insertedState (st : StoreState) (nt : IApiTokenCreate) (now : Int) : StoreState :=
  { tokens := st.tokens ++ [ApiTokenStore.toRow nt now],
    tokenProjects := st.tokenProjects ++
      (ApiTokenStore.projLinks nt).map (fun p => (nt.secret, p)),
    tokenEnvironments := st.tokenEnvironments ++
      (ApiTokenStore.envLinks nt).map (fun e => (nt.secret, e)) }

/-- The synthesized response insert returns for the request. -/
def insertedResponse (nt : IApiTokenCreate) (now : Int) : InsertedToken :=
  { secret := nt.secret, username := nt.username, type_ := nt.type_,
    projects := nt.projects, environments := nt.environments,
    expiresAt := nt.expiresAt, project := joinOrAll nt.projects,
    environment := joinOrAll nt.environments, createdAt := now }

/-- A row of the left join of the inserted token with its link tables. -/
def mkJoinRow (nt : IApiTokenCreate) (now : Int) (p e : Option String) : TokenRow :=
  { secret := nt.secret, username := nt.username, type_ := nt.type_,
    expires_at := nt.expiresAt, created_at := now, seen_at := none,
    project := p, environment := e }

/-- Claim C2 (amended): for a fresh secret, insert followed by get returns
per dimension the inserted list, with the wildcard standing in for an
absent, empty or sentinel list, provided each inserted list is empty, the
sentinel, or all concrete, and either one dimension contributes no link
rows or both contribute at most one; outside those shapes the relational
join replicates entries across the two link tables. -/
theorem claim_C2_amended (st : StoreState) (nt : IApiTokenCreate) (now : Int)
    (hfresh1 : ∀ t ∈ st.tokens, t.secret ≠ nt.secret)
    (hfresh2 : ∀ l ∈ st.tokenProjects, l.1 ≠ nt.secret)
    (hfresh3 : ∀ l ∈ st.tokenEnvironments, l.1 ≠ nt.secret)
    (hp : nt.projects.getD [] = [] ∨ nt.projects.getD [] = [ALL] ∨
      ∀ p ∈ nt.projects.getD [], p ≠ ALL ∧ p ≠ "")
    (he : nt.environments.getD [] = [] ∨ nt.environments.getD [] = [ALL] ∨
      ∀ e ∈ nt.environments.getD [], e ≠ ALL ∧ e ≠ "")
    (hcard : ((nt.projects.getD []).length ≤ 1 ∧
        (nt.environments.getD []).length ≤ 1) ∨
      nt.projects.getD [] = [] ∨ nt.projects.getD [] = [ALL] ∨
      nt.environments.getD [] = [] ∨ nt.environments.getD [] = [ALL]) :
    ∃ res stF,
      ApiTokenStore.insert (fun _ => false) (fun _ => false) st nt now =
        .ok (res, stF) ∧
      ∃ tok, ApiTokenStore.get stF nt.secret = some tok ∧
        tok.secret = nt.secret ∧
        tok.projects = (if nt.projects.getD [] = [] ∨ nt.projects.getD [] = [ALL]
          then [ALL] else nt.projects.getD []) ∧
        tok.project = String.intercalate "," tok.projects ∧
        tok.environments = (if nt.environments.getD [] = [] ∨
            nt.environments.getD [] = [ALL]
          then [ALL] else nt.environments.getD []) ∧
        tok.environment = String.intercalate "," tok.environments := by
  have hany : ¬ (st.tokens.any (fun t => t.secret == nt.secret)) = true := by
    intro h
    obtain ⟨t, ht, hbeq⟩ := List.any_eq_true.mp h
    exact hfresh1 t ht (beq_iff_eq.mp hbeq)
  refine ⟨insertedResponse nt now, insertedState st nt now, ?_, ?_⟩
  · unfold ApiTokenStore.insert insertedResponse insertedState
    rw [if_neg hany, if_neg (by simp)]
  · have hlinksP : linksFor (insertedState st nt now).tokenProjects
        (ApiTokenStore.toRow nt now).secret = ApiTokenStore.projLinks nt := by
      show linksFor (st.tokenProjects ++
          (ApiTokenStore.projLinks nt).map (fun p => (nt.secret, p))) nt.secret =
        ApiTokenStore.projLinks nt
      rw [ApiTokenStore.linksFor_append,
          ApiTokenStore.linksFor_nil_of_fresh _ _ hfresh2, List.nil_append,
          ApiTokenStore.linksFor_map_self]
    have hlinksE : linksFor (insertedState st nt now).tokenEnvironments
        (ApiTokenStore.toRow nt now).secret = ApiTokenStore.envLinks nt := by
      show linksFor (st.tokenEnvironments ++
          (ApiTokenStore.envLinks nt).map (fun e => (nt.secret, e))) nt.secret =
        ApiTokenStore.envLinks nt
      rw [ApiTokenStore.linksFor_append,
          ApiTokenStore.linksFor_nil_of_fresh _ _ hfresh3, List.nil_append,
          ApiTokenStore.linksFor_map_self]
    have hrowsgen : ApiTokenStore.rowsOfToken (insertedState st nt now)
        (ApiTokenStore.toRow nt now) =
        (leftOpt (ApiTokenStore.projLinks nt)).flatMap (fun p =>
          (leftOpt (ApiTokenStore.envLinks nt)).map (fun e => mkJoinRow nt now p e)) := by
      unfold ApiTokenStore.rowsOfToken
      rw [hlinksP, hlinksE]
      rfl
    have hbridge : List.filter (fun t => t.secret == nt.secret)
        (insertedState st nt now).tokens = [ApiTokenStore.toRow nt now] := by
      show List.filter (fun t => t.secret == nt.secret)
          (st.tokens ++ [ApiTokenStore.toRow nt now]) =
        [ApiTokenStore.toRow nt now]
      rw [List.filter_append,
          List.filter_eq_nil_iff.mpr
            (fun t ht hc => hfresh1 t ht (beq_iff_eq.mp hc)),
          List.nil_append, List.filter_cons,
          if_pos (by simp [ApiTokenStore.toRow])]
      rfl
    have hrowsfilter : List.filter (fun r => r.secret == nt.secret)
        (ApiTokenStore.makeTokenProjectQuery (insertedState st nt now)) =
        ApiTokenStore.rowsOfToken (insertedState st nt now)
          (ApiTokenStore.toRow nt now) := by
      rw [ApiTokenStore.makeQuery_filter_secret, hbridge, List.flatMap_cons,
          List.flatMap_nil, List.append_nil]
    have hPS : (ApiTokenStore.projLinks nt = [] ∧
        (nt.projects.getD [] = [] ∨ nt.projects.getD [] = [ALL])) ∨
        (ApiTokenStore.projLinks nt = nt.projects.getD [] ∧
          nt.projects.getD [] ≠ [] ∧
          ∀ p ∈ nt.projects.getD [], p ≠ ALL ∧ p ≠ "") := by
      rcases hp with h | h | h
      · refine Or.inl ⟨?_, Or.inl h⟩
        unfold ApiTokenStore.projLinks
        rw [h]
        rfl
      · refine Or.inl ⟨?_, Or.inr h⟩
        unfold ApiTokenStore.projLinks
        rw [h]
        rfl
      · by_cases hnil : nt.projects.getD [] = []
        · refine Or.inl ⟨?_, Or.inl hnil⟩
          unfold ApiTokenStore.projLinks
          rw [hnil]
          rfl
        · refine Or.inr ⟨?_, hnil, h⟩
          unfold ApiTokenStore.projLinks
          apply List.filter_eq_self.mpr
          intro p hp2
          simpa [bne_iff_ne, ALL, ALL_PROJECTS] using (h p hp2).1
    have hES : (ApiTokenStore.envLinks nt = [] ∧
        (nt.environments.getD [] = [] ∨ nt.environments.getD [] = [ALL])) ∨
        (ApiTokenStore.envLinks nt = nt.environments.getD [] ∧
          nt.environments.getD [] ≠ [] ∧
          ∀ e ∈ nt.environments.getD [], e ≠ ALL ∧ e ≠ "") := by
      rcases he with h | h | h
      · refine Or.inl ⟨?_, Or.inl h⟩
        unfold ApiTokenStore.envLinks
        rw [h]
        rfl
      · refine Or.inl ⟨?_, Or.inr h⟩
        unfold ApiTokenStore.envLinks
        rw [h]
        rfl
      · by_cases hnil : nt.environments.getD [] = []
        · refine Or.inl ⟨?_, Or.inl hnil⟩
          unfold ApiTokenStore.envLinks
          rw [hnil]
          rfl
        · refine Or.inr ⟨?_, hnil, h⟩
          unfold ApiTokenStore.envLinks
          apply List.filter_eq_self.mpr
          intro e he2
          simpa [bne_iff_ne, ALL] using (h e he2).1
    rcases hPS with ⟨hPSnil, hpcond⟩ | ⟨hPSeq, hPne, hPcon⟩
    · rcases hES with ⟨hESnil, hecond⟩ | ⟨hESeq, hEne, hEcon⟩
      · rw [if_pos hpcond, if_pos hecond]
        have hrows : ApiTokenStore.rowsOfToken (insertedState st nt now)
            (ApiTokenStore.toRow nt now) = [mkJoinRow nt now none none] := by
          rw [hrowsgen, hPSnil, hESnil]
          rfl
        have hfilt : List.filter (fun r => r.secret == nt.secret)
            (ApiTokenStore.makeTokenProjectQuery (insertedState st nt now)) =
            [mkJoinRow nt now none none] := by
          rw [hrowsfilter, hrows]
        have hget := get_single_token (insertedState st nt now) nt.secret
          (mkJoinRow nt now none none) [] hfilt
          (by intro r hr; rw [List.mem_singleton] at hr; subst hr; rfl)
        obtain ⟨hj1, hj2⟩ := applyRows_joined [mkJoinRow nt now none none] _
          (seedToken_joined (mkJoinRow nt now none none))
        refine ⟨_, hget, ?_, ?_, hj1, ?_, hj2⟩
        · rw [applyRows_secret]
          rfl
        · rw [applyRows_projects]
          rfl
        · rw [applyRows_environments]
          rfl
      · cases hesshape : nt.environments.getD [] with
        | nil => exact absurd hesshape hEne
        | cons e0 es =>
          have hstarE : ALL ∉ e0 :: es := by
            intro hmem
            exact (hEcon ALL (by rw [hesshape]; exact hmem)).1 rfl
          rw [if_pos hpcond,
              if_neg (by
                rintro (h | h)
                · simp at h
                · exact hstarE (by rw [h]; exact List.mem_singleton.mpr rfl))]
          have hrows : ApiTokenStore.rowsOfToken (insertedState st nt now)
              (ApiTokenStore.toRow nt now) =
              mkJoinRow nt now none (some e0) ::
                es.map (fun e => mkJoinRow nt now none (some e)) := by
            rw [hrowsgen, hPSnil, hESeq, hesshape,
                show leftOpt ([] : List String) = [none] from rfl,
                List.flatMap_singleton,
                show leftOpt (e0 :: es) = (e0 :: es).map some from rfl,
                List.map_map]
            rfl
          have hfilt : List.filter (fun r => r.secret == nt.secret)
              (ApiTokenStore.makeTokenProjectQuery (insertedState st nt now)) =
              mkJoinRow nt now none (some e0) ::
                es.map (fun e => mkJoinRow nt now none (some e)) := by
            rw [hrowsfilter, hrows]
          have hall : ∀ r ∈ mkJoinRow nt now none (some e0) ::
              es.map (fun e => mkJoinRow nt now none (some e)),
              r.secret = nt.secret := by
            intro r hr
            rcases List.mem_cons.mp hr with h | h
            · subst h; rfl
            · rw [List.mem_map] at h
              obtain ⟨e, he2, hfe⟩ := h
              subst hfe
              rfl
          have hget := get_single_token (insertedState st nt now) nt.secret
            (mkJoinRow nt now none (some e0))
            (es.map (fun e => mkJoinRow nt now none (some e))) hfilt hall
          have hprojvals : (mkJoinRow nt now none (some e0) ::
              es.map (fun e => mkJoinRow nt now none (some e))).filterMap
              (fun r => truthyVal r.project) = [] := by
            rw [List.filterMap_cons]
            show List.filterMap (fun r => truthyVal r.project)
              (es.map (fun e => mkJoinRow nt now none (some e))) = []
            rw [List.filterMap_map]
            exact filterMap_const_none es
          have henvvals : (mkJoinRow nt now none (some e0) ::
              es.map (fun e => mkJoinRow nt now none (some e))).filterMap
              (fun r => truthyVal r.environment) = e0 :: es := by
            show List.filterMap (fun r => truthyVal r.environment)
              ((e0 :: es).map (fun e => mkJoinRow nt now none (some e))) = e0 :: es
            rw [List.filterMap_map]
            exact filterMap_truthy_concrete (e0 :: es)
              (fun x hx => (hEcon x (by rw [hesshape]; exact hx)).2)
          obtain ⟨hj1, hj2⟩ := applyRows_joined _ _
            (seedToken_joined (mkJoinRow nt now none (some e0)))
          refine ⟨_, hget, ?_, ?_, hj1, ?_, hj2⟩
          · rw [applyRows_secret]
            rfl
          · rw [applyRows_projects, hprojvals]
            rfl
          · rw [applyRows_environments, henvvals]
            show scopeFold (e0 :: es) = e0 :: es
            exact scopeFold_concrete _ (by simp) hstarE
    · rcases hES with ⟨hESnil, hecond⟩ | ⟨hESeq, hEne, hEcon⟩
      · cases hpsshape : nt.projects.getD [] with
        | nil => exact absurd hpsshape hPne
        | cons p0 ps =>
          have hstarP : ALL ∉ p0 :: ps := by
            intro hmem
            exact (hPcon ALL (by rw [hpsshape]; exact hmem)).1 rfl
          rw [if_neg (by
                rintro (h | h)
                · simp at h
                · exact hstarP (by rw [h]; exact List.mem_singleton.mpr rfl)),
              if_pos hecond]
          have hrows : ApiTokenStore.rowsOfToken (insertedState st nt now)
              (ApiTokenStore.toRow nt now) =
              mkJoinRow nt now (some p0) none ::
                ps.map (fun p => mkJoinRow nt now (some p) none) := by
            rw [hrowsgen, hPSeq, hpsshape, hESnil,
                show leftOpt (p0 :: ps) = (p0 :: ps).map some from rfl,
                flatMap_single_of (p0 :: ps)
                  (fun p => List.map (fun e => mkJoinRow nt now p e) (leftOpt []))
                  (fun p => mkJoinRow nt now p none) (fun p => rfl)]
            rfl
          have hfilt : List.filter (fun r => r.secret == nt.secret)
              (ApiTokenStore.makeTokenProjectQuery (insertedState st nt now)) =
              mkJoinRow nt now (some p0) none ::
                ps.map (fun p => mkJoinRow nt now (some p) none) := by
            rw [hrowsfilter, hrows]
          have hall : ∀ r ∈ mkJoinRow nt now (some p0) none ::
              ps.map (fun p => mkJoinRow nt now (some p) none),
              r.secret = nt.secret := by
            intro r hr
            rcases List.mem_cons.mp hr with h | h
            · subst h; rfl
            · rw [List.mem_map] at h
              obtain ⟨p, hp2, hfp⟩ := h
              subst hfp
              rfl
          have hget := get_single_token (insertedState st nt now) nt.secret
            (mkJoinRow nt now (some p0) none)
            (ps.map (fun p => mkJoinRow nt now (some p) none)) hfilt hall
          have hprojvals : (mkJoinRow nt now (some p0) none ::
              ps.map (fun p => mkJoinRow nt now (some p) none)).filterMap
              (fun r => truthyVal r.project) = p0 :: ps := by
            show List.filterMap (fun r => truthyVal r.project)
              ((p0 :: ps).map (fun p => mkJoinRow nt now (some p) none)) = p0 :: ps
            rw [List.filterMap_map]
            exact filterMap_truthy_concrete (p0 :: ps)
              (fun x hx => (hPcon x (by rw [hpsshape]; exact hx)).2)
          have henvvals : (mkJoinRow nt now (some p0) none ::
              ps.map (fun p => mkJoinRow nt now (some p) none)).filterMap
              (fun r => truthyVal r.environment) = [] := by
            rw [List.filterMap_cons]
            show List.filterMap (fun r => truthyVal r.environment)
              (ps.map (fun p => mkJoinRow nt now (some p) none)) = []
            rw [List.filterMap_map]
            exact filterMap_const_none ps
          obtain ⟨hj1, hj2⟩ := applyRows_joined _ _
            (seedToken_joined (mkJoinRow nt now (some p0) none))
          refine ⟨_, hget, ?_, ?_, hj1, ?_, hj2⟩
          · rw [applyRows_secret]
            rfl
          · rw [applyRows_projects, hprojvals]
            show scopeFold (p0 :: ps) = p0 :: ps
            exact scopeFold_concrete _ (by simp) hstarP
          · rw [applyRows_environments, henvvals]
            rfl
      · obtain ⟨p1, hpsshape⟩ : ∃ a, nt.projects.getD [] = [a] := by
          rcases hcard with ⟨hl1, hl2⟩ | h | h | h | h
          · exact singleton_shape _ hPne hl1
          · exact absurd h hPne
          · exact absurd
              ((hPcon ALL (by rw [h]; exact List.mem_singleton.mpr rfl)).1) (by simp)
          · exact absurd h hEne
          · exact absurd
              ((hEcon ALL (by rw [h]; exact List.mem_singleton.mpr rfl)).1) (by simp)
        obtain ⟨e1, heshape⟩ : ∃ a, nt.environments.getD [] = [a] := by
          rcases hcard with ⟨hl1, hl2⟩ | h | h | h | h
          · exact singleton_shape _ hEne hl2
          · exact absurd h hPne
          · exact absurd
              ((hPcon ALL (by rw [h]; exact List.mem_singleton.mpr rfl)).1) (by simp)
          · exact absurd h hEne
          · exact absurd
              ((hEcon ALL (by rw [h]; exact List.mem_singleton.mpr rfl)).1) (by simp)
        have hp1 := hPcon p1 (by rw [hpsshape]; exact List.mem_singleton.mpr rfl)
        have he1 := hEcon e1 (by rw [heshape]; exact List.mem_singleton.mpr rfl)
        rw [if_neg (by
              rintro (h | h)
              · exact hPne h
              · exact (hPcon ALL (by rw [h]; exact List.mem_singleton.mpr rfl)).1 rfl),
            if_neg (by
              rintro (h | h)
              · exact hEne h
              · exact (hEcon ALL (by rw [h]; exact List.mem_singleton.mpr rfl)).1 rfl),
            hpsshape, heshape]
        have hrows : ApiTokenStore.rowsOfToken (insertedState st nt now)
            (ApiTokenStore.toRow nt now) = [mkJoinRow nt now (some p1) (some e1)] := by
          rw [hrowsgen, hPSeq, hpsshape, hESeq, heshape]
          rfl
        have hfilt : List.filter (fun r => r.secret == nt.secret)
            (ApiTokenStore.makeTokenProjectQuery (insertedState st nt now)) =
            [mkJoinRow nt now (some p1) (some e1)] := by
          rw [hrowsfilter, hrows]
        have hget := get_single_token (insertedState st nt now) nt.secret
          (mkJoinRow nt now (some p1) (some e1)) [] hfilt
          (by intro r hr; rw [List.mem_singleton] at hr; subst hr; rfl)
        have hvp : truthyVal (mkJoinRow nt now (some p1) (some e1)).project =
            some p1 := by
          show truthyVal (some p1) = some p1
          unfold truthyVal truthy
          rw [if_pos (by simp [hp1.2])]
          rfl
        have hve : truthyVal (mkJoinRow nt now (some p1) (some e1)).environment =
            some e1 := by
          show truthyVal (some e1) = some e1
          unfold truthyVal truthy
          rw [if_pos (by simp [he1.2])]
          rfl
        have hprojvals : ([mkJoinRow nt now (some p1) (some e1)]).filterMap
            (fun r => truthyVal r.project) = [p1] := by
          rw [List.filterMap_cons, hvp]
          rfl
        have henvvals : ([mkJoinRow nt now (some p1) (some e1)]).filterMap
            (fun r => truthyVal r.environment) = [e1] := by
          rw [List.filterMap_cons, hve]
          rfl
        obtain ⟨hj1, hj2⟩ := applyRows_joined _ _
          (seedToken_joined (mkJoinRow nt now (some p1) (some e1)))
        refine ⟨_, hget, ?_, ?_, hj1, ?_, hj2⟩
        · rw [applyRows_secret]
          rfl
        · rw [applyRows_projects, hprojvals]
          show scopeFold [p1] = [p1]
          exact scopeFold_concrete _ (by simp)
            (by rw [List.mem_singleton]; exact fun h => hp1.1 h.symm)
        · rw [applyRows_environments, henvvals]
          show scopeFold [e1] = [e1]
          exact scopeFold_concrete _ (by simp)
            (by rw [List.mem_singleton]; exact fun h => he1.1 h.symm)

/-- The request of the C2 counterexample: two projects and two
environments. -/
def ntC2X : IApiTokenCreate :=
  { secret := "s1", username := "u", type_ := "client",
    projects := some ["p1", "p2"], environments := some ["e1", "e2"],
    expiresAt := none }

/-- Claim C2 counterexample: inserting projects p1, p2 with environments
e1, e2 and reading the token back yields each project twice, because the
left join pairs every project link with every environment link. -/
theorem claim_C2_counterexample :
    (ApiTokenStore.get
        (ApiTokenStore.insertOutcome (fun _ => false) (fun _ => false)
          stEmpty ntC2X 0) "s1").map (fun t => t.projects) =
      some ["p1", "p1", "p2", "p2"] ∧
    (ApiTokenStore.get
        (ApiTokenStore.insertOutcome (fun _ => false) (fun _ => false)
          stEmpty ntC2X 0) "s1").map (fun t => t.projects) ≠
      some ["p1", "p2"] := by
  exact ⟨rfl, by decide⟩

/-- The request of the C2 witness: the example of the specification. -/
def ntC2W : IApiTokenCreate :=
  { secret := "s1", username := "u", type_ := "client",
    projects := some ["p1", "p2"], environments := some ["*"],
    expiresAt := none }

/-- Claim C2 witness: the specification example, inserting s1 with
projects p1 and p2 and the environment sentinel. -/
theorem claim_C2_witness :
    ∃ res stF,
      ApiTokenStore.insert (fun _ => false) (fun _ => false) stEmpty ntC2W 0 =
        .ok (res, stF) ∧
      ∃ tok, ApiTokenStore.get stF ntC2W.secret = some tok ∧
        tok.secret = ntC2W.secret ∧
        tok.projects = (if ntC2W.projects.getD [] = [] ∨
            ntC2W.projects.getD [] = [ALL]
          then [ALL] else ntC2W.projects.getD []) ∧
        tok.project = String.intercalate "," tok.projects ∧
        tok.environments = (if ntC2W.environments.getD [] = [] ∨
            ntC2W.environments.getD [] = [ALL]
          then [ALL] else ntC2W.environments.getD []) ∧
        tok.environment = String.intercalate "," tok.environments :=
  claim_C2_amended stEmpty ntC2W 0 (by decide) (by decide) (by decide)
    (by decide) (by decide) (by decide)
